import Mathlib

/-!
Verification of the chunked linear-attention kernels in
`fla/ops/retention/chunk.py` and `fla/ops/delta_rule/chunk.py`.

The Triton kernels are embedded shallowly over `ℚ` (exact arithmetic):
tensors become functions from indices to rationals, per-(batch, head)
slices are modelled independently (the kernels are data-parallel over the
batch·head axis), and every block-pointer load with `boundary_check`
becomes a load function that yields `0` outside the time range, exactly as
Triton zero-fills out-of-bounds block loads.
-/

/-- Shape of a per-(batch, head) tensor slice: two remaining indices
(time × feature, or key-feature × value-feature for states). -/
abbrev Mat : Type := ℕ → ℕ → ℚ

/-- Boundary-checked block load of row `t` of tensor `x` whose time extent
is `T`; Triton zero-fills rows outside `[0, T)`. -/
def ld (T : ℕ) (x : Mat) (t : ℕ) : ℕ → ℚ :=
  fun j => if t < T then x t j else 0

/-- Boundary-checked load of a per-position scalar (such as beta). -/
def ldS (T : ℕ) (x : ℕ → ℚ) (t : ℕ) : ℚ :=
  if t < T then x t else 0

/-- Dot product over the key-feature dimension `Kd`. -/
def dotK (Kd : ℕ) (a b : ℕ → ℚ) : ℚ :=
  ∑ c in Finset.range Kd, a c * b c

/-- Ceiling division, `triton.cdiv`. -/
def cdiv (a b : ℕ) : ℕ := (a + b - 1) / b

/-- Helper for `nextPow2`: starting from `p`, double until at least `n`,
with a structural fuel bound. -/
def nextPow2From (n : ℕ) : ℕ → ℕ → ℕ
  | 0, p => p
  | fuel + 1, p => if n ≤ p then p else nextPow2From n fuel (2 * p)

/-- Smallest power of two that is at least `n`, `triton.next_power_of_2`
(`n` doublings starting from 1 always suffice). -/
def nextPow2 (n : ℕ) : ℕ := nextPow2From n n 1

/-- Number of time chunks, `NT = triton.cdiv(T, BT)`. -/
def NTof (T BT : ℕ) : ℕ := cdiv T BT

/-- The state a kernel starts from: the supplied initial state when
`USE_INITIAL_STATE`, otherwise `tl.zeros`. -/
def initState (h0 : Option Mat) : Mat :=
  fun a b => match h0 with
  | some s => s a b
  | none => 0

/-- Per-head geometric decay rate of the retention variant: the kernels set
`b_b = log2(1 - exp2(-5 - i_h))`, so one decay step multiplies by
`exp2(b_b) = 1 - 2^(-5 - i_h)`. -/
def decayRate (h : ℕ) : ℚ := 1 - (1 / 2 : ℚ) ^ (5 + h)

/-- Effective decay length of chunk `i` in `chunk_retention_fwd_kernel_h`:
`d_b`/`d_i` are rebuilt from `T % BT` on the final chunk when it is
partial, and use `BT` otherwise. -/
def chunkLen (T BT NT i : ℕ) : ℕ :=
  if i = NT - 1 ∧ T % BT ≠ 0 then T % BT else BT

/-- One chunk update of the running state in `chunk_retention_fwd_kernel_h`
(line 75): `b_h = d_b * b_h + dot(b_k, b_v * d_i[:, None])` with
`d_b = rate^L` and `d_i[o] = rate^(L - o - 1)` for `L = chunkLen`. -/
def chunk_retention_fwd_upd (hh T BT NT : ℕ) (k v : Mat) (S : Mat) (i : ℕ) : Mat :=
  fun a b =>
    decayRate hh ^ chunkLen T BT NT i * S a b
      + ∑ o in Finset.range BT,
          ld T k (i * BT + o) a *
            (ld T v (i * BT + o) b *
              decayRate hh ^ ((chunkLen T BT NT i : ℤ) - o - 1))

/-- The running state of `chunk_retention_fwd_kernel_h` at the entry of
chunk `i` (the value stored as the `i`-th snapshot `h[i]`); the value at
`NTof T BT` is the final state. -/
def chunk_retention_fwd_h (hh T BT : ℕ) (k v : Mat) (h0 : Option Mat) : ℕ → Mat
  | 0 => initState h0
  | i + 1 =>
      chunk_retention_fwd_upd hh T BT (NTof T BT) k v
        (chunk_retention_fwd_h hh T BT k v h0 i) i

/-- Output of `chunk_retention_fwd_kernel_o` at time `t`, value feature
`b`: cross-chunk term `b_o * d_i` plus intra-chunk term `b_s * d_s` times
values, all times `scale` (lines 137-141). -/
def chunk_retention_fwd_o (hh T BT Kd : ℕ) (scale : ℚ) (q k v : Mat)
    (h0 : Option Mat) (t b : ℕ) : ℚ :=
  (decayRate hh ^ (t % BT + 1) *
      (∑ c in Finset.range Kd,
        ld T q t c * chunk_retention_fwd_h hh T BT k v h0 (t / BT) c b)
    + ∑ j in Finset.range BT,
        (if j ≤ t % BT then
            decayRate hh ^ (t % BT - j) *
              (∑ c in Finset.range Kd, ld T q t c * ld T k (t / BT * BT + j) c)
          else 0) * ld T v (t / BT * BT + j) b) * scale

/-- One time step of the retention recurrence: decay the state and add the
rank-one key-value update. -/
def retStep (g : ℚ) (S : Mat) (kr vr : ℕ → ℚ) : Mat :=
  fun a b => g * S a b + kr a * vr b

/-- The retention state after processing positions `0..t-1` one at a time. -/
def retScan (g : ℚ) (T : ℕ) (k v : Mat) (S0 : Mat) : ℕ → Mat
  | 0 => S0
  | t + 1 => retStep g (retScan g T k v S0 t) (ld T k t) (ld T v t)

/-- Local iteration of `retStep` over an arbitrary row sequence. -/
def retLoc (g : ℚ) (kr vr : ℕ → ℕ → ℚ) (S : Mat) : ℕ → Mat
  | 0 => S
  | m + 1 => retStep g (retLoc g kr vr S m) (kr m) (vr m)

/-- Modelled from the spec: `fwd_prepare_wy_repr` lives in
`fla.ops.delta_rule.wy_fast`, which is not part of the source set. Per the
spec (§4.1, §6 and the glossary) it re-expresses the per-token
state-correction recurrence as a chunk-local linear transform; row `r` of
the transformed tensor obeys the forward-substitution recurrence
`row r = beta r * x r - beta r * sum over i < r of (k i · k r) * row i`,
the unique transform for which the one-shot chunk update coincides with
the exact sequential one-step delta recurrence (proved below). Instantiate
`x` with the chunk-local keys for `W` and with the values for `U`. -/
def wyMat (Kd : ℕ) (be : ℕ → ℚ) (kk x : Mat) (r : ℕ) : ℕ → ℚ :=
  fun j => be r * x r j
    - be r * ∑ i in (Finset.range r).attach,
        dotK Kd (kk i.1) (kk r) * wyMat Kd be kk x i.1 j
termination_by r
decreasing_by exact Finset.mem_range.mp i.2

/-- Modelled from the spec: global row `t` of the `W` tensor produced by
the WY collaborator, built chunk-locally from the boundary-checked key and
beta rows of the chunk containing `t`. -/
def fwd_prepare_w (Kd T BT : ℕ) (k : Mat) (be : ℕ → ℚ) (t : ℕ) : ℕ → ℚ :=
  wyMat Kd (fun m => ldS T be (t / BT * BT + m)) (fun m => ld T k (t / BT * BT + m))
    (fun m => ld T k (t / BT * BT + m)) (t % BT)

/-- Modelled from the spec: global row `t` of the delta-corrected value
tensor `U` produced by the WY collaborator. -/
def fwd_prepare_u (Kd T BT : ℕ) (k v : Mat) (be : ℕ → ℚ) (t : ℕ) : ℕ → ℚ :=
  wyMat Kd (fun m => ldS T be (t / BT * BT + m)) (fun m => ld T k (t / BT * BT + m))
    (fun m => ld T v (t / BT * BT + m)) (t % BT)

/-- Modelled from the spec: the chunk-local transform matrix `A` retained
for the backward pass; `wyMat` applied to identity rows, so that
chunk-locally `W = A·K` and `U = A·V`. -/
def fwd_prepare_A (Kd T BT : ℕ) (k : Mat) (be : ℕ → ℚ) (t : ℕ) : ℕ → ℚ :=
  wyMat Kd (fun m => ldS T be (t / BT * BT + m)) (fun m => ld T k (t / BT * BT + m))
    (fun m j => if m = j then 1 else 0) (t % BT)

/-- One chunk update of `chunk_delta_rule_fwd_kernel_h` (lines 109-129):
the sub-tile loop over `i_c` computes the corrected value
`b_v - dot(b_d, b_h)` against the chunk-entry state `b_h` (which is not
updated inside the loop), accumulates `dot(b_k, b_v)` into `b_h_cumsum`,
and adds the chunk-local accumulator into the running state once, after
all sub-tiles. -/
def chunk_delta_rule_fwd_upd (Kd T BT BC : ℕ) (k w u : Mat) (S : Mat) (i : ℕ) : Mat :=
  fun a b =>
    S a b + ∑ ic in Finset.range (cdiv BT BC), ∑ j in Finset.range BC,
      ld T k (i * BT + (ic * BC + j)) a *
        (ld T u (i * BT + (ic * BC + j)) b
          - ∑ c in Finset.range Kd, ld T w (i * BT + (ic * BC + j)) c * S c b)

/-- The running state of `chunk_delta_rule_fwd_kernel_h` at the entry of
chunk `i` (stored as snapshot `h[i]`); the value at `NTof T BT` is the
final state. -/
def chunk_delta_rule_fwd_h (Kd T BT BC : ℕ) (k w u : Mat) (h0 : Option Mat) : ℕ → Mat
  | 0 => initState h0
  | i + 1 => chunk_delta_rule_fwd_upd Kd T BT BC k w u
      (chunk_delta_rule_fwd_h Kd T BT BC k w u h0 i) i

/-- The corrected value `v_new` stored at row `t` by
`chunk_delta_rule_fwd_kernel_h` (lines 125-127): `u - W·(chunk-entry
state)`; rows are written by the sub-tiles of their own chunk since the
sub-chunk size divides the chunk size in every driver configuration. -/
def chunk_delta_rule_v_new (Kd T BT BC : ℕ) (k w u : Mat) (h0 : Option Mat)
    (t : ℕ) : ℕ → ℚ :=
  fun b => ld T u t b - ∑ c in Finset.range Kd,
    ld T w t c * chunk_delta_rule_fwd_h Kd T BT BC k w u h0 (t / BT) c b

/-- Output of `chunk_delta_rule_fwd_kernel_o` at time `t` (lines 166-192):
queries pre-scaled by `scale`, inclusive causal mask `m_s`, no decay
weights; `vnew` is the corrected-value tensor. -/
def chunk_delta_rule_fwd_o (T BT Kd : ℕ) (scale : ℚ) (q k vnew : Mat)
    (h : ℕ → Mat) (t b : ℕ) : ℚ :=
  (∑ c in Finset.range Kd, scale * ld T q t c * h (t / BT) c b)
    + ∑ j in Finset.range BT,
        (if j ≤ t % BT then
            ∑ c in Finset.range Kd, scale * ld T q t c * ld T k (t / BT * BT + j) c
          else 0) * ld T vnew (t / BT * BT + j) b

/-- One time step of the sequential delta rule: add the beta-weighted
state-corrected rank-one update. -/
def deltaStep (Kd : ℕ) (S : Mat) (kr vr : ℕ → ℚ) (be : ℚ) : Mat :=
  fun a b => S a b + kr a * (be * (vr b - ∑ c in Finset.range Kd, S c b * kr c))

/-- The delta-rule state after processing positions `0..t-1` one at a time. -/
def deltaScan (Kd T : ℕ) (k v : Mat) (be : ℕ → ℚ) (S0 : Mat) : ℕ → Mat
  | 0 => S0
  | t + 1 => deltaStep Kd (deltaScan Kd T k v be S0 t) (ld T k t) (ld T v t) (ldS T be t)

/-- Local iteration of `deltaStep` over an arbitrary row sequence. -/
def deltaLoc (Kd : ℕ) (kr vr : Mat) (be : ℕ → ℚ) (S : Mat) : ℕ → Mat
  | 0 => S
  | m + 1 => deltaStep Kd (deltaLoc Kd kr vr be S m) (kr m) (vr m) (be m)

/-- The sequentially corrected value of local position `m`. -/
def deltaVloc (Kd : ℕ) (kr vr : Mat) (be : ℕ → ℚ) (S : Mat) (m b : ℕ) : ℚ :=
  be m * (vr m b - ∑ c in Finset.range Kd, deltaLoc Kd kr vr be S m c b * kr m c)

/-- The sequentially corrected value at global time `t`. -/
def deltaVseq (Kd T : ℕ) (k v : Mat) (be : ℕ → ℚ) (S0 : Mat) (t b : ℕ) : ℚ :=
  ldS T be t * (ld T v t b
    - ∑ c in Finset.range Kd, deltaScan Kd T k v be S0 t c b * ld T k t c)

/-- One reverse-order chunk update of `chunk_retention_bwd_kernel_dh`
(lines 196-209): `b_dh = d_b * b_dh + dot(b_q * scale, b_do * d_i)` with
`d_b = rate^min(BT, T - i*BT)` and `d_i[o] = rate^(o+1)`. -/
def chunk_retention_bwd_upd (hh T BT : ℕ) (scale : ℚ) (q dout : Mat)
    (D : Mat) (i : ℕ) : Mat :=
  fun a b => decayRate hh ^ min BT (T - i * BT) * D a b
    + ∑ o in Finset.range BT,
        (ld T q (i * BT + o) a * scale) *
          (ld T dout (i * BT + o) b * decayRate hh ^ (o + 1))

/-- The reverse accumulator of `chunk_retention_bwd_kernel_dh` after
processing `m` chunks starting from the last; initialised from the
final-state gradient when `USE_FINAL_STATE_GRADIENT`, zero otherwise. -/
def chunk_retention_bwd_acc (hh T BT : ℕ) (scale : ℚ) (q dout : Mat)
    (dht : Option Mat) : ℕ → Mat
  | 0 => initState dht
  | m + 1 => chunk_retention_bwd_upd hh T BT scale q dout
      (chunk_retention_bwd_acc hh T BT scale q dout dht m) (NTof T BT - 1 - m)

/-- The snapshot `dh[i]` stored by `chunk_retention_bwd_kernel_dh`: the
accumulator as the reverse loop reaches chunk `i`, before folding chunk
`i`'s own contribution. -/
def chunk_retention_bwd_dh (hh T BT : ℕ) (scale : ℚ) (q dout : Mat)
    (dht : Option Mat) (i : ℕ) : Mat :=
  chunk_retention_bwd_acc hh T BT scale q dout dht (NTof T BT - 1 - i)

/-- The initial-state gradient written after the reverse loop when
`STORE_INITIAL_STATE_GRADIENT`. -/
def chunk_retention_bwd_dh0 (hh T BT : ℕ) (scale : ℚ) (q dout : Mat)
    (dht : Option Mat) : Mat :=
  chunk_retention_bwd_acc hh T BT scale q dout dht (NTof T BT)

/-- Driver `chunk_bwd_dh_fn` (lines 348-369): `dh0` is allocated, and hence
emitted, exactly when the caller passed an initial state `h0`. -/
def chunk_bwd_dh_fn_dh0 (hh T BT : ℕ) (scale : ℚ) (q dout : Mat)
    (h0 dht : Option Mat) : Option Mat :=
  match h0 with
  | some _ => some (chunk_retention_bwd_dh0 hh T BT scale q dout dht)
  | none => none

/-- One reverse-order chunk update of `chunk_delta_rule_bwd_kernel_dhu`
(lines 242-269): sub-tiles traversed in reverse order (immaterial for the
sum), `b_dh_tmp` collects `dot(b_q*scale, b_do) - dot(b_d, b_dv)` where
`b_dv = dv + dot(b_k, b_dh)` uses the chunk-entry reverse accumulator, and
`b_dh` is updated once after the sub-tile loop. -/
def chunk_delta_rule_bwd_upd (Kd T BT BC : ℕ) (scale : ℚ) (q k d dv dout : Mat)
    (D : Mat) (i : ℕ) : Mat :=
  fun a b => D a b
    + ∑ ic in Finset.range (cdiv BT BC), ∑ j in Finset.range BC,
        ((ld T q (i * BT + (ic * BC + j)) a * scale) *
            ld T dout (i * BT + (ic * BC + j)) b
          - ld T d (i * BT + (ic * BC + j)) a *
              (ld T dv (i * BT + (ic * BC + j)) b
                + ∑ c in Finset.range Kd, ld T k (i * BT + (ic * BC + j)) c * D c b))

/-- The reverse accumulator of `chunk_delta_rule_bwd_kernel_dhu` after
processing `m` chunks starting from the last. -/
def chunk_delta_rule_bwd_acc (Kd T BT BC : ℕ) (scale : ℚ) (q k d dv dout : Mat)
    (dht : Option Mat) : ℕ → Mat
  | 0 => initState dht
  | m + 1 => chunk_delta_rule_bwd_upd Kd T BT BC scale q k d dv dout
      (chunk_delta_rule_bwd_acc Kd T BT BC scale q k d dv dout dht m)
      (NTof T BT - 1 - m)

/-- The snapshot `dh[i]` stored by `chunk_delta_rule_bwd_kernel_dhu`. -/
def chunk_delta_rule_bwd_dh (Kd T BT BC : ℕ) (scale : ℚ) (q k d dv dout : Mat)
    (dht : Option Mat) (i : ℕ) : Mat :=
  chunk_delta_rule_bwd_acc Kd T BT BC scale q k d dv dout dht (NTof T BT - 1 - i)

/-- The initial-state gradient emitted after the reverse loop when
`USE_INITIAL_STATE`. -/
def chunk_delta_rule_bwd_dh0 (Kd T BT BC : ℕ) (scale : ℚ) (q k d dv dout : Mat)
    (dht : Option Mat) : Mat :=
  chunk_delta_rule_bwd_acc Kd T BT BC scale q k d dv dout dht (NTof T BT)

/-- The updated value gradient `dv2[t]` stored by
`chunk_delta_rule_bwd_kernel_dhu` (lines 261-265): `dv[t] + dot(b_k, b_dh)`
against the chunk-entry reverse accumulator, which equals the stored
`dh[t / BT]`. -/
def chunk_delta_rule_bwd_dv2 (Kd T BT BC : ℕ) (scale : ℚ) (q k d dv dout : Mat)
    (dht : Option Mat) (t b : ℕ) : ℚ :=
  ld T dv t b + ∑ c in Finset.range Kd,
    ld T k t c *
      chunk_delta_rule_bwd_dh Kd T BT BC scale q k d dv dout dht (t / BT) c b

/-- Driver `chunk_delta_rule_bwd` (lines 573-576): `dh0` is allocated, and
hence emitted, exactly when an initial state was supplied and it requires
gradients. -/
def chunk_delta_rule_bwd_dh0_opt (Kd T BT BC : ℕ) (scale : ℚ)
    (q k d dv dout : Mat) (dht : Option Mat) (h0 : Option Mat)
    (reqGrad : Bool) : Option Mat :=
  match h0, reqGrad with
  | some _, true => some (chunk_delta_rule_bwd_dh0 Kd T BT BC scale q k d dv dout dht)
  | _, _ => none

/-- Torch floating dtypes relevant to the drivers' validation. -/
inductive DType where
  | float32 : DType
  | bfloat16 : DType
  | float16 : DType
deriving DecidableEq

/-- The assert checks at the top of `chunk_retention` (lines 444-445):
4-dimensional q, k, v and equal dtypes; there is no dtype-value check. -/
def chunk_retention_validate (qd kd vd : DType) (qdim kdim vdim : ℕ) :
    Except String Unit :=
  if ¬(qdim = 4 ∧ kdim = 4 ∧ vdim = 4) then
    Except.error "q, k, v must have 4 dimensions"
  else if ¬(qd = kd ∧ kd = vd) then
    Except.error "q, k, v must have the same dtype"
  else Except.ok ()

/-- The assert checks at the top of `chunk_delta_rule` (lines 667-669):
equal dtypes, dtype not float32, beta of rank 3. -/
def chunk_delta_rule_validate (qd kd vd : DType) (betaDim : ℕ) :
    Except String Unit :=
  if ¬(qd = kd ∧ kd = vd) then
    Except.error "q, k and v must have the same dtype"
  else if qd = DType.float32 then
    Except.error "ChunkDeltaRuleFunction does not support float32. Please use bfloat16."
  else if ¬(betaDim = 3) then
    Except.error "beta must be of shape (batch size, num of head, seq len)."
  else Except.ok ()

/-- The K tiling computed by the retention driver `chunk_fwd_h_fn`
(lines 313-314): `BK = min(64, next_power_of_2(K))`, `NK = cdiv(K, BK)`;
the function contains no assert, so the launch always proceeds and the
number of K tiles is returned. -/
def chunk_fwd_h_fn_NK (K : ℕ) : Except String ℕ :=
  Except.ok (cdiv K (min 64 (nextPow2 K)))

/-- The two asserts of the delta-rule driver `chunk_delta_rule_fwd_h_fn`
(lines 380-396): `BK = next_power_of_2(K)` must satisfy `BK ≤ 256` and
`NK = cdiv(K, BK)` must equal 1; on success the single-tile count is
returned. -/
def chunk_delta_rule_fwd_h_fn_NK (K : ℕ) : Except String ℕ :=
  if ¬(nextPow2 K ≤ 256) then
    Except.error "current kernel does not support head dimension larger than 256."
  else if ¬(cdiv K (nextPow2 K) = 1) then
    Except.error "NK > 1 is not supported because it involves time-consuming synchronization"
  else Except.ok 1

/-- Tensor `dv` produced by `chunk_delta_rule_fwd_kernel_prepare_dv`
(lines 42-60): transpose-causal product, upper-triangular inclusive mask
`t <= j` within the chunk. -/
def chunk_delta_rule_prepare_dv (Kd T BT : ℕ) (scale : ℚ) (q k dout : Mat)
    (t b : ℕ) : ℚ :=
  ∑ j in Finset.range BT,
    (if t % BT ≤ j then
        ∑ c in Finset.range Kd, ld T k t c * (ld T q (t / BT * BT + j) c * scale)
      else 0) * ld T dout (t / BT * BT + j) b

/-- Row of `dq` from `chunk_delta_rule_bwd_kernel_dqkw` (lines 319-357):
`(dot(b_do, b_h) + dot(causal-masked b_ds, b_k)) * scale`. -/
def chunk_delta_rule_bwd_dq (Vd T BT : ℕ) (scale : ℚ) (k dout : Mat)
    (h : ℕ → Mat) (vnew : Mat) (t a : ℕ) : ℚ :=
  scale * ((∑ b in Finset.range Vd, ld T dout t b * h (t / BT) a b)
    + ∑ j in Finset.range BT,
        (if j ≤ t % BT then
            ∑ b in Finset.range Vd, ld T dout t b * ld T vnew (t / BT * BT + j) b
          else 0) * ld T k (t / BT * BT + j) a)

/-- Row of `dk` from `chunk_delta_rule_bwd_kernel_dqkw` (lines 320-358):
`dot(b_v, trans b_dh) + trans(dot(b_q * scale, b_ds))`. -/
def chunk_delta_rule_bwd_dk (Vd T BT : ℕ) (scale : ℚ) (q dout : Mat)
    (dh : ℕ → Mat) (vnew : Mat) (t a : ℕ) : ℚ :=
  (∑ b in Finset.range Vd, ld T vnew t b * dh (t / BT) a b)
    + ∑ j in Finset.range BT,
        (ld T q (t / BT * BT + j) a * scale) *
          (if t % BT ≤ j then
              ∑ b in Finset.range Vd, ld T dout (t / BT * BT + j) b * ld T vnew t b
            else 0)

/-- Row of `dw` from `chunk_delta_rule_bwd_kernel_dqkw` (lines 343, 359):
`-dot(b_dv, b_h)`, sign-negated at the store. -/
def chunk_delta_rule_bwd_dw (Vd T BT : ℕ) (dv2 : Mat) (h : ℕ → Mat)
    (t a : ℕ) : ℚ :=
  -(∑ b in Finset.range Vd, ld T dv2 t b * h (t / BT) a b)

/-- Output bundle of driver `chunk_delta_rule_fwd` (lines 528-552). -/
structure DeltaFwdOut where
  o : Mat
  A : Mat
  hSnap : Option (ℕ → Mat)
  vnewSnap : Option Mat
  finalState : Option Mat

/-- Driver `chunk_delta_rule_fwd`: WY preparation, state kernel, output
kernel; with `checkpoint_level = 1` the state snapshots and corrected
values are dropped after the output is computed (lines 550-551). -/
def chunk_delta_rule_fwd_model (Kd T BT BC : ℕ) (scale : ℚ) (q k v : Mat)
    (be : ℕ → ℚ) (h0 : Option Mat) (outputFinal : Bool) (cl : ℕ) : DeltaFwdOut :=
  let w := fwd_prepare_w Kd T BT k be
  let u := fwd_prepare_u Kd T BT k v be
  let h := chunk_delta_rule_fwd_h Kd T BT BC k w u h0
  let vnew := chunk_delta_rule_v_new Kd T BT BC k w u h0
  { o := fun t b => chunk_delta_rule_fwd_o T BT Kd scale q k vnew h t b
    A := fwd_prepare_A Kd T BT k be
    hSnap := if cl = 1 then none else some h
    vnewSnap := if cl = 1 then none else some vnew
    finalState := if outputFinal then some (h (NTof T BT)) else none }

/-- Modelled from the spec: `fwd_recompute_w_u` (from
`fla.ops.delta_rule.wy_fast`, not in the source set) recomputes the same
`W` tensor from (K, beta, A) during backward when the snapshots were
dropped. -/
def fwd_recompute_w (Kd T BT : ℕ) (k : Mat) (be : ℕ → ℚ) : Mat :=
  fwd_prepare_w Kd T BT k be

/-- Modelled from the spec: the `U` half of `fwd_recompute_w_u`. -/
def fwd_recompute_u (Kd T BT : ℕ) (k v : Mat) (be : ℕ → ℚ) : Mat :=
  fwd_prepare_u Kd T BT k v be

/-- Gradient bundle of driver `chunk_delta_rule_bwd` (lines 555-582). -/
structure DeltaBwdOut where
  dq : Mat
  dk : Mat
  dv : Mat
  dbeta : ℕ → ℚ
  dh0 : Option Mat

/-- Type of the spec's external WY-gradient collaborator
`bwd_prepare_wy_repr`: from (K, V, beta, A, dW, dV) produce the additive
key gradient, the final value gradient and the beta gradient. -/
abbrev WyBwd : Type :=
  Mat → Mat → (ℕ → ℚ) → Mat → Mat → Mat → Mat × Mat × (ℕ → ℚ)

/-- Driver `chunk_delta_rule_bwd` (lines 555-582): recompute `w`, `u`;
recompute the snapshots and corrected values if they were not saved
(`if h is None`); run prepare-dv, the reverse dhu kernel, the dqkw kernel
and the external WY backward; add the extra key gradient into `dk`. -/
def chunk_delta_rule_bwd_model (Kd Vd T BT BC : ℕ) (scale : ℚ)
    (q k v : Mat) (be : ℕ → ℚ) (A : Mat) (hOpt : Option (ℕ → Mat))
    (vnewOpt : Option Mat) (h0 : Option Mat) (reqGrad : Bool)
    (dout : Mat) (dht : Option Mat) (wyBwd : WyBwd) : DeltaBwdOut :=
  let w := fwd_recompute_w Kd T BT k be
  let u := fwd_recompute_u Kd T BT k v be
  let hv : (ℕ → Mat) × Mat := match hOpt, vnewOpt with
    | some h2, some vn => (h2, vn)
    | _, _ => (chunk_delta_rule_fwd_h Kd T BT BC k w u h0,
               chunk_delta_rule_v_new Kd T BT BC k w u h0)
  let dv := fun t b => chunk_delta_rule_prepare_dv Kd T BT scale q k dout t b
  let dh := chunk_delta_rule_bwd_dh Kd T BT BC scale q k w dv dout dht
  let dv2 := fun t b => chunk_delta_rule_bwd_dv2 Kd T BT BC scale q k w dv dout dht t b
  let dkLocal := fun t a => chunk_delta_rule_bwd_dk Vd T BT scale q dout dh hv.2 t a
  let dw := fun t a => chunk_delta_rule_bwd_dw Vd T BT dv2 hv.1 t a
  let wyOut := wyBwd k v be A dw dv2
  { dq := fun t a => chunk_delta_rule_bwd_dq Vd T BT scale k dout hv.1 hv.2 t a
    dk := fun t a => dkLocal t a + wyOut.1 t a
    dv := wyOut.2.1
    dbeta := wyOut.2.2
    dh0 := chunk_delta_rule_bwd_dh0_opt Kd T BT BC scale q k w dv dout dht h0 reqGrad }

/-- The spec's causal mask: `S = mask_causal(Q_i K_i^T)`, lower-triangular
inclusive (written from the spec's words). -/
def maskCausal (s : Mat) : Mat := fun t j => if j ≤ t then s t j else 0

/-- Spec formula for the delta-rule chunk output, written from the spec's
words: `scale * (Q_i · H[i] + S · V_i)` with `S = mask_causal(Q_i K_i^T)`
and `V_i` the corrected value. -/
def outputSpecDelta (Kd T BT : ℕ) (scale : ℚ) (q k vnew : Mat) (h : ℕ → Mat)
    (t b : ℕ) : ℚ :=
  scale * ((∑ c in Finset.range Kd, ld T q t c * h (t / BT) c b)
    + ∑ j in Finset.range BT,
        maskCausal (fun o j2 => ∑ c in Finset.range Kd,
          ld T q (t / BT * BT + o) c * ld T k (t / BT * BT + j2) c) (t % BT) j
          * ld T vnew (t / BT * BT + j) b)

/-- Spec formula for the retention chunk output, written from the spec's
words: as the delta formula, but the score from key position `j` to query
position `o` is additionally weighted by `rate^(o-j)` and the cross-chunk
term by the per-position decay factor `rate^(o+1)`. -/
def outputSpecRetention (hh Kd T BT : ℕ) (scale : ℚ) (q k v : Mat)
    (h : ℕ → Mat) (t b : ℕ) : ℚ :=
  scale * (decayRate hh ^ (t % BT + 1) *
      (∑ c in Finset.range Kd, ld T q t c * h (t / BT) c b)
    + ∑ j in Finset.range BT,
        decayRate hh ^ (t % BT - j) *
          maskCausal (fun o j2 => ∑ c in Finset.range Kd,
            ld T q (t / BT * BT + o) c * ld T k (t / BT * BT + j2) c) (t % BT) j
          * ld T v (t / BT * BT + j) b)

/-- Concrete witness input: a query-like tensor. -/
def witQ : Mat := fun t _ => if t = 0 then 1 else 5

/-- Concrete witness input differing from `witQ` only at times past 0. -/
def witQ2 : Mat := fun t _ => if t = 0 then 1 else 7

/-- Concrete witness input: a key-like tensor. -/
def witK : Mat := fun t _ => if t = 0 then 2 else 3

/-- Concrete witness input differing from `witK` only at times past 0. -/
def witK2 : Mat := fun t _ => if t = 0 then 2 else 9

/-- Concrete witness input: a value-like tensor. -/
def witV : Mat := fun t _ => if t = 0 then 1 else 4

/-- Concrete witness input differing from `witV` only at times past 0. -/
def witV2 : Mat := fun t _ => if t = 0 then 1 else 6

/-- Concrete witness input: a beta sequence. -/
def witBe : ℕ → ℚ := fun t => if t = 0 then 1 / 2 else 1 / 3

/-- Concrete witness input differing from `witBe` only at times past 0. -/
def witBe2 : ℕ → ℚ := fun t => if t = 0 then 1 / 2 else 1 / 4

/-- Concrete witness input: a state matrix. -/
def witS : Mat := fun _ _ => 1

theorem retScan_add (g : ℚ) (T : ℕ) (k v : Mat) (S0 : Mat) (n : ℕ) :
    ∀ m, retScan g T k v S0 (n + m)
      = retLoc g (fun j => ld T k (n + j)) (fun j => ld T v (n + j))
          (retScan g T k v S0 n) m := by
  intro m
  induction m with
  | zero => rfl
  | succ m ih =>
    rw [Nat.add_succ]
    simp only [retScan, retLoc, ih]

theorem retLoc_closed (g : ℚ) (kr vr : ℕ → ℕ → ℚ) (S : Mat) (m a b : ℕ) :
    retLoc g kr vr S m a b
      = g ^ m * S a b
        + ∑ j in Finset.range m, g ^ (m - 1 - j) * (kr j a * vr j b) := by
  induction m with
  | zero => simp [retLoc]
  | succ m ih =>
    simp only [retLoc, retStep, ih, Finset.sum_range_succ]
    have e0 : m + 1 - 1 - m = 0 := by omega
    have e1 : g * (g ^ m * S a b) = g ^ (m + 1) * S a b := by ring
    have e2 : g * ∑ j in Finset.range m, g ^ (m - 1 - j) * (kr j a * vr j b)
        = ∑ j in Finset.range m, g ^ (m + 1 - 1 - j) * (kr j a * vr j b) := by
      rw [Finset.mul_sum]
      apply Finset.sum_congr rfl
      intro j hj
      have hj' := Finset.mem_range.mp hj
      have e3 : m + 1 - 1 - j = (m - 1 - j) + 1 := by omega
      rw [e3, pow_succ]
      ring
    rw [mul_add, e1, e2, e0, pow_zero, one_mul]
    ring

theorem NTof_spec (T BT : ℕ) (hBT : 0 < BT) :
    NTof T BT = T / BT + (if T % BT = 0 then 0 else 1) := by
  have hdm := Nat.div_add_mod T BT
  have hlt : T % BT < BT := Nat.mod_lt _ hBT
  unfold NTof cdiv
  by_cases h0 : T % BT = 0
  · have e : T + BT - 1 = BT * (T / BT) + (BT - 1) := by omega
    rw [e, Nat.mul_add_div hBT, Nat.div_eq_of_lt (show BT - 1 < BT by omega)]
    simp [h0]
  · have e : T + BT - 1 = BT * (T / BT + 1) + (T % BT - 1) := by
      have e0 : BT * (T / BT + 1) = BT * (T / BT) + BT := by ring
      omega
    rw [e, Nat.mul_add_div hBT, Nat.div_eq_of_lt (show T % BT - 1 < BT by omega)]
    simp [h0]

theorem lt_NT_iff (T BT i : ℕ) (hBT : 0 < BT) : i < NTof T BT ↔ i * BT < T := by
  unfold NTof cdiv
  rw [Nat.lt_iff_add_one_le, Nat.le_div_iff_mul_le hBT, add_mul, one_mul]
  omega

theorem chunkLen_eq_min (T BT i : ℕ) (hBT : 0 < BT) (hi : i < NTof T BT) :
    chunkLen T BT (NTof T BT) i = min BT (T - i * BT) := by
  have hdm := Nat.div_add_mod T BT
  have hlt : T % BT < BT := Nat.mod_lt _ hBT
  have hnt := NTof_spec T BT hBT
  unfold chunkLen
  by_cases hc : i = NTof T BT - 1 ∧ T % BT ≠ 0
  · rw [if_pos hc]
    obtain ⟨h1, h2⟩ := hc
    rw [if_neg h2] at hnt
    have hiq : i = T / BT := by omega
    have e : i * BT = BT * (T / BT) := by rw [hiq]; ring
    have e2 : T - i * BT = T % BT := by omega
    rw [e2, min_eq_right (le_of_lt hlt)]
  · rw [if_neg hc]
    have hiq : i + 1 ≤ T / BT := by
      by_cases h0 : T % BT = 0
      · rw [if_pos h0] at hnt
        omega
      · rw [if_neg h0] at hnt
        have hA : i ≠ NTof T BT - 1 := fun h => hc ⟨h, h0⟩
        omega
    have e : (i + 1) * BT ≤ (T / BT) * BT := Nat.mul_le_mul_right BT hiq
    have e' : i * BT + BT ≤ (T / BT) * BT := by rw [add_mul, one_mul] at e; exact e
    have e2 : (T / BT) * BT = BT * (T / BT) := by ring
    rw [min_eq_left (by omega)]

theorem div_lt_NT (T BT t : ℕ) (hBT : 0 < BT) (ht : t < T) :
    t / BT < NTof T BT := by
  rw [lt_NT_iff T BT _ hBT]
  have h1 := Nat.div_add_mod t BT
  have h2 : t / BT * BT = BT * (t / BT) := Nat.mul_comm _ _
  omega

theorem sum_range_mul_split (f : ℕ → ℚ) (m b : ℕ) :
    ∑ r in Finset.range (m * b), f r
      = ∑ i in Finset.range m, ∑ j in Finset.range b, f (i * b + j) := by
  induction m with
  | zero => simp
  | succ m ih =>
    rw [Nat.succ_mul, Finset.sum_range_add, ih, Finset.sum_range_succ]

theorem sum_range_ite_le (f : ℕ → ℚ) (o n : ℕ) (h : o < n) :
    ∑ j in Finset.range n, (if j ≤ o then f j else 0)
      = ∑ j in Finset.range (o + 1), f j := by
  rw [← Finset.sum_subset (Finset.range_subset.mpr h)
      (fun x hx hnx => if_neg (by simp only [Finset.mem_range] at hx hnx; omega))]
  apply Finset.sum_congr rfl
  intro j hj
  exact if_pos (by simp only [Finset.mem_range] at hj; omega)

theorem ret_upd_eq_loc (hh T BT i : ℕ) (k v : Mat) (S : Mat) (hBT : 0 < BT)
    (hi : i < NTof T BT) (a b : ℕ) :
    chunk_retention_fwd_upd hh T BT (NTof T BT) k v S i a b
      = retLoc (decayRate hh) (fun j => ld T k (i * BT + j))
          (fun j => ld T v (i * BT + j)) S (chunkLen T BT (NTof T BT) i) a b := by
  rw [retLoc_closed]
  have hLmin : chunkLen T BT (NTof T BT) i = min BT (T - i * BT) :=
    chunkLen_eq_min T BT i hBT hi
  set L := chunkLen T BT (NTof T BT) i with hL
  have hLBT : L ≤ BT := hLmin ▸ min_le_left _ _
  have hiT : i * BT < T := (lt_NT_iff T BT i hBT).mp hi
  unfold chunk_retention_fwd_upd
  congr 1
  have hzero : ∀ o ∈ Finset.range BT, o ∉ Finset.range L →
      ld T k (i * BT + o) a *
        (ld T v (i * BT + o) b * decayRate hh ^ ((L : ℤ) - o - 1)) = 0 := by
    intro o ho hno
    simp only [Finset.mem_range] at ho hno
    have hoL : L ≤ o := by omega
    have hLlt : L < BT := by omega
    have hLval : L = T - i * BT := by
      rcases le_total BT (T - i * BT) with hc | hc
      · exfalso
        rw [hLmin, min_eq_left hc] at hLlt
        omega
      · rw [hLmin, min_eq_right hc]
    have hout : ¬(i * BT + o < T) := by omega
    simp [ld, hout]
  rw [← Finset.sum_subset (Finset.range_subset.mpr hLBT) hzero]
  apply Finset.sum_congr rfl
  intro o ho
  simp only [Finset.mem_range] at ho
  have hcast : ((L - 1 - o : ℕ) : ℤ) = (L : ℤ) - o - 1 := by omega
  rw [← hcast, zpow_natCast]
  ring

theorem ret_h_eq_scan (hh T BT : ℕ) (k v : Mat) (h0 : Option Mat) (hBT : 0 < BT) :
    ∀ i, i ≤ NTof T BT → ∀ a b,
      chunk_retention_fwd_h hh T BT k v h0 i a b
        = retScan (decayRate hh) T k v (initState h0) (min (i * BT) T) a b := by
  intro i
  induction i with
  | zero => intro _ a b; simp [chunk_retention_fwd_h, retScan]
  | succ i ih =>
    intro hi a b
    have hi' : i < NTof T BT := by omega
    have hiT : i * BT < T := (lt_NT_iff T BT i hBT).mp hi'
    have hmin : min (i * BT) T = i * BT := min_eq_left (le_of_lt hiT)
    have step : chunk_retention_fwd_h hh T BT k v h0 (i + 1) a b
        = chunk_retention_fwd_upd hh T BT (NTof T BT) k v
            (retScan (decayRate hh) T k v (initState h0) (i * BT)) i a b := by
      show chunk_retention_fwd_upd hh T BT (NTof T BT) k v
          (chunk_retention_fwd_h hh T BT k v h0 i) i a b = _
      unfold chunk_retention_fwd_upd
      rw [ih (le_of_lt hi') a b, hmin]
    rw [step, ret_upd_eq_loc hh T BT i k v _ hBT hi' a b,
        ← retScan_add (decayRate hh) T k v (initState h0) (i * BT) _]
    congr 1
    rw [chunkLen_eq_min T BT i hBT hi']
    rcases le_total BT (T - i * BT) with hc | hc
    · rw [min_eq_left hc,
        min_eq_left (show (i + 1) * BT ≤ T by rw [add_mul, one_mul]; omega),
        add_mul, one_mul]
    · rw [min_eq_right hc,
        min_eq_right (show T ≤ (i + 1) * BT by rw [add_mul, one_mul]; omega)]
      omega

theorem ret_o_spine (hh T BT Kd : ℕ) (scale : ℚ) (q k v : Mat) (h0 : Option Mat)
    (hBT : 0 < BT) (t b : ℕ) (ht : t < T) :
    chunk_retention_fwd_o hh T BT Kd scale q k v h0 t b
      = scale * ∑ c in Finset.range Kd,
          ld T q t c * retScan (decayRate hh) T k v (initState h0) (t + 1) c b := by
  have hdm : BT * (t / BT) + t % BT = t := Nat.div_add_mod t BT
  have hoBT : t % BT < BT := Nat.mod_lt _ hBT
  have hiNT : t / BT < NTof T BT := div_lt_NT T BT t hBT ht
  have hmc : t / BT * BT = BT * (t / BT) := Nat.mul_comm _ _
  have hcs : t / BT * BT ≤ t := by omega
  have ht1 : t + 1 = t / BT * BT + (t % BT + 1) := by omega
  rw [ht1, retScan_add]
  unfold chunk_retention_fwd_o
  have hHeq : (∑ c in Finset.range Kd,
      ld T q t c * chunk_retention_fwd_h hh T BT k v h0 (t / BT) c b)
      = ∑ c in Finset.range Kd, ld T q t c *
          retScan (decayRate hh) T k v (initState h0) (t / BT * BT) c b := by
    apply Finset.sum_congr rfl
    intro c _
    rw [ret_h_eq_scan hh T BT k v h0 hBT (t / BT) (le_of_lt hiNT) c b,
        min_eq_left (by omega)]
  rw [hHeq]
  have hmask : (∑ j in Finset.range BT, (if j ≤ t % BT then
        decayRate hh ^ (t % BT - j) *
          (∑ c in Finset.range Kd, ld T q t c * ld T k (t / BT * BT + j) c)
      else 0) * ld T v (t / BT * BT + j) b)
      = ∑ j in Finset.range (t % BT + 1),
          decayRate hh ^ (t % BT - j) *
            (∑ c in Finset.range Kd, ld T q t c * ld T k (t / BT * BT + j) c)
            * ld T v (t / BT * BT + j) b := by
    simp only [ite_mul, zero_mul]
    exact sum_range_ite_le _ _ _ hoBT
  rw [hmask]
  have hloc : ∀ c, retLoc (decayRate hh) (fun j => ld T k (t / BT * BT + j))
      (fun j => ld T v (t / BT * BT + j))
      (retScan (decayRate hh) T k v (initState h0) (t / BT * BT)) (t % BT + 1) c b
      = decayRate hh ^ (t % BT + 1) *
          retScan (decayRate hh) T k v (initState h0) (t / BT * BT) c b
        + ∑ j in Finset.range (t % BT + 1), decayRate hh ^ (t % BT - j) *
            (ld T k (t / BT * BT + j) c * ld T v (t / BT * BT + j) b) := by
    intro c
    rw [retLoc_closed]
    congr 1
  simp only [hloc, mul_add, add_mul, Finset.mul_sum, Finset.sum_mul,
    Finset.sum_add_distrib]
  rw [Finset.sum_comm]
  congr 1
  · apply Finset.sum_congr rfl
    intro c _
    ring
  · apply Finset.sum_congr rfl
    intro j _
    apply Finset.sum_congr rfl
    intro c _
    ring

theorem wyMat_eq (Kd : ℕ) (be : ℕ → ℚ) (kk x : Mat) (r j : ℕ) :
    wyMat Kd be kk x r j
      = be r * x r j
        - be r * ∑ i in Finset.range r,
            dotK Kd (kk i) (kk r) * wyMat Kd be kk x i j := by
  rw [wyMat]
  rw [← Finset.sum_attach (Finset.range r)
    (fun i => dotK Kd (kk i) (kk r) * wyMat Kd be kk x i j)]

theorem deltaScan_add (Kd T : ℕ) (k v : Mat) (be : ℕ → ℚ) (S0 : Mat) (n : ℕ) :
    ∀ m, deltaScan Kd T k v be S0 (n + m)
      = deltaLoc Kd (fun j => ld T k (n + j)) (fun j => ld T v (n + j))
          (fun j => ldS T be (n + j)) (deltaScan Kd T k v be S0 n) m := by
  intro m
  induction m with
  | zero => rfl
  | succ m ih =>
    rw [Nat.add_succ]
    simp only [deltaScan, deltaLoc, ih]

theorem deltaScan_past (Kd T : ℕ) (k v : Mat) (be : ℕ → ℚ) (S0 : Mat) :
    ∀ m a b, deltaScan Kd T k v be S0 (T + m) a b
      = deltaScan Kd T k v be S0 T a b := by
  intro m
  induction m with
  | zero => intro a b; rfl
  | succ m ih =>
    intro a b
    rw [Nat.add_succ]
    show deltaStep Kd (deltaScan Kd T k v be S0 (T + m)) (ld T k (T + m))
      (ld T v (T + m)) (ldS T be (T + m)) a b = _
    unfold deltaStep
    rw [ld]
    simp only [if_neg (show ¬(T + m < T) by omega)]
    rw [mul_comm (0 : ℚ), mul_zero, add_zero]
    exact ih a b

theorem deltaLoc_closed (Kd : ℕ) (kr vr : Mat) (be : ℕ → ℚ) (S : Mat) :
    ∀ m a b, deltaLoc Kd kr vr be S m a b
      = S a b + ∑ r in Finset.range m, kr r a * deltaVloc Kd kr vr be S r b := by
  intro m
  induction m with
  | zero => intro a b; simp [deltaLoc]
  | succ m ih =>
    intro a b
    show deltaStep Kd (deltaLoc Kd kr vr be S m) (kr m) (vr m) (be m) a b = _
    unfold deltaStep
    rw [ih a b, Finset.sum_range_succ]
    unfold deltaVloc
    ring

theorem deltaVloc_wy (Kd : ℕ) (kr vr : Mat) (be : ℕ → ℚ) (S : Mat) :
    ∀ m b, deltaVloc Kd kr vr be S m b
      = wyMat Kd be kr vr m b
        - ∑ c in Finset.range Kd, wyMat Kd be kr kr m c * S c b := by
  intro m
  induction m using Nat.strong_induction_on with
  | _ m ih =>
    intro b
    unfold deltaVloc
    have hL : (∑ c in Finset.range Kd, deltaLoc Kd kr vr be S m c b * kr m c)
        = (∑ c in Finset.range Kd, S c b * kr m c)
          + ∑ r in Finset.range m,
              dotK Kd (kr r) (kr m) * deltaVloc Kd kr vr be S r b := by
      simp only [deltaLoc_closed, add_mul, Finset.sum_add_distrib, Finset.sum_mul]
      congr 1
      rw [Finset.sum_comm]
      apply Finset.sum_congr rfl
      intro r _
      rw [dotK, Finset.sum_mul]
      apply Finset.sum_congr rfl
      intro c _
      ring
    rw [hL]
    have hIH : (∑ r in Finset.range m,
          dotK Kd (kr r) (kr m) * deltaVloc Kd kr vr be S r b)
        = ∑ r in Finset.range m, dotK Kd (kr r) (kr m) *
            (wyMat Kd be kr vr r b
              - ∑ c in Finset.range Kd, wyMat Kd be kr kr r c * S c b) := by
      apply Finset.sum_congr rfl
      intro r hr
      rw [ih r (Finset.mem_range.mp hr)]
    rw [hIH, wyMat_eq Kd be kr vr m b]
    have hW : (∑ c in Finset.range Kd, wyMat Kd be kr kr m c * S c b)
        = be m * (∑ c in Finset.range Kd, S c b * kr m c)
          - be m * ∑ r in Finset.range m, dotK Kd (kr r) (kr m) *
              (∑ c in Finset.range Kd, wyMat Kd be kr kr r c * S c b) := by
      have hW1 : (∑ c in Finset.range Kd, wyMat Kd be kr kr m c * S c b)
          = ∑ c in Finset.range Kd,
              (be m * kr m c
                - be m * ∑ i in Finset.range m,
                    dotK Kd (kr i) (kr m) * wyMat Kd be kr kr i c) * S c b := by
        apply Finset.sum_congr rfl
        intro c _
        rw [wyMat_eq]
      rw [hW1]
      simp only [sub_mul]
      rw [Finset.sum_sub_distrib]
      congr 1
      · rw [Finset.mul_sum]
        apply Finset.sum_congr rfl
        intro c _
        ring
      · simp only [Finset.mul_sum, Finset.sum_mul]
        rw [Finset.sum_comm]
        apply Finset.sum_congr rfl
        intro r _
        apply Finset.sum_congr rfl
        intro c _
        ring
    rw [hW]
    have hB : (∑ r in Finset.range m, dotK Kd (kr r) (kr m) *
          (wyMat Kd be kr vr r b
            - ∑ c in Finset.range Kd, wyMat Kd be kr kr r c * S c b))
        = (∑ r in Finset.range m, dotK Kd (kr r) (kr m) * wyMat Kd be kr vr r b)
          - ∑ r in Finset.range m, dotK Kd (kr r) (kr m) *
              (∑ c in Finset.range Kd, wyMat Kd be kr kr r c * S c b) := by
      rw [← Finset.sum_sub_distrib]
      apply Finset.sum_congr rfl
      intro r _
      ring
    rw [hB]
    ring

theorem wyMat_zero (Kd : ℕ) (be : ℕ → ℚ) (kk x : Mat) (r j : ℕ) (h : be r = 0) :
    wyMat Kd be kk x r j = 0 := by
  rw [wyMat_eq, h]
  ring

theorem add_mul_div_right_eq (i BT o : ℕ) (hBT : 0 < BT) (ho : o < BT) :
    (i * BT + o) / BT = i := by
  rw [add_comm, Nat.add_mul_div_right _ _ hBT, Nat.div_eq_of_lt ho, zero_add]

theorem add_mul_mod_right_eq (i BT o : ℕ) (ho : o < BT) :
    (i * BT + o) % BT = o := by
  rw [add_comm, Nat.add_mul_mod_self_right, Nat.mod_eq_of_lt ho]

theorem NT_mul_ge (T BT : ℕ) (hBT : 0 < BT) : T ≤ NTof T BT * BT := by
  rw [NTof_spec T BT hBT]
  have hdm := Nat.div_add_mod T BT
  have hlt : T % BT < BT := Nat.mod_lt _ hBT
  have hcm : T / BT * BT = BT * (T / BT) := Nat.mul_comm _ _
  by_cases h0 : T % BT = 0
  · rw [if_pos h0, add_mul]
    omega
  · rw [if_neg h0, add_mul, one_mul]
    omega

theorem delta_upd_flat (Kd T BT BC : ℕ) (k w u : Mat) (S : Mat) (i : ℕ)
    (hBC : 0 < BC) (hdvd : BC ∣ BT) (a b : ℕ) :
    chunk_delta_rule_fwd_upd Kd T BT BC k w u S i a b
      = S a b + ∑ o in Finset.range BT,
          ld T k (i * BT + o) a *
            (ld T u (i * BT + o) b
              - ∑ c in Finset.range Kd, ld T w (i * BT + o) c * S c b) := by
  unfold chunk_delta_rule_fwd_upd
  congr 1
  obtain ⟨qq, hq⟩ := hdvd
  have hcd : cdiv BT BC = qq := by
    unfold cdiv
    have e : BT + BC - 1 = BC * qq + (BC - 1) := by omega
    rw [e, Nat.mul_add_div hBC, Nat.div_eq_of_lt (show BC - 1 < BC by omega)]
    simp
  have hqq : qq * BC = BT := by rw [hq, Nat.mul_comm]
  have key : ∀ f : ℕ → ℚ,
      (∑ ic in Finset.range (cdiv BT BC), ∑ j in Finset.range BC, f (ic * BC + j))
        = ∑ r in Finset.range BT, f r := by
    intro f
    rw [hcd, ← sum_range_mul_split f qq BC, hqq]
  exact key (fun r => ld T k (i * BT + r) a *
    (ld T u (i * BT + r) b - ∑ c in Finset.range Kd, ld T w (i * BT + r) c * S c b))

theorem delta_vrow_eq (Kd T BT : ℕ) (k v : Mat) (be : ℕ → ℚ) (S : Mat) (i o b : ℕ)
    (hBT : 0 < BT) (ho : o < BT) :
    ld T (fwd_prepare_u Kd T BT k v be) (i * BT + o) b
      - ∑ c in Finset.range Kd,
          ld T (fwd_prepare_w Kd T BT k be) (i * BT + o) c * S c b
      = deltaVloc Kd (fun j => ld T k (i * BT + j)) (fun j => ld T v (i * BT + j))
          (fun j => ldS T be (i * BT + j)) S o b := by
  have hdiv : (i * BT + o) / BT = i := add_mul_div_right_eq i BT o hBT ho
  have hmod : (i * BT + o) % BT = o := add_mul_mod_right_eq i BT o ho
  rw [deltaVloc_wy]
  by_cases hT : i * BT + o < T
  · simp only [ld, if_pos hT]
    unfold fwd_prepare_u fwd_prepare_w
    rw [hdiv, hmod]
  · simp only [ld, if_neg hT]
    have hbe : (fun j => ldS T be (i * BT + j)) o = 0 := by
      show ldS T be (i * BT + o) = 0
      unfold ldS
      rw [if_neg hT]
    have hsum : (∑ c in Finset.range Kd,
        wyMat Kd (fun j => ldS T be (i * BT + j)) (fun j => ld T k (i * BT + j))
          (fun j => ld T k (i * BT + j)) o c * S c b) = 0 := by
      apply Finset.sum_eq_zero
      intro c _
      rw [wyMat_zero Kd _ _ _ o c hbe]
      ring
    rw [wyMat_zero Kd _ _ _ o b hbe, hsum]
    simp

theorem delta_upd_eq_scan (Kd T BT BC : ℕ) (k v : Mat) (be : ℕ → ℚ) (S0 : Mat)
    (i : ℕ) (hBT : 0 < BT) (hBC : 0 < BC) (hdvd : BC ∣ BT) (a b : ℕ) :
    chunk_delta_rule_fwd_upd Kd T BT BC k (fwd_prepare_w Kd T BT k be)
        (fwd_prepare_u Kd T BT k v be)
        (deltaScan Kd T k v be S0 (i * BT)) i a b
      = deltaScan Kd T k v be S0 (i * BT + BT) a b := by
  rw [delta_upd_flat Kd T BT BC _ _ _ _ i hBC hdvd a b,
    deltaScan_add Kd T k v be S0 (i * BT) BT,
    deltaLoc_closed]
  congr 1
  apply Finset.sum_congr rfl
  intro o ho
  rw [delta_vrow_eq Kd T BT k v be _ i o b hBT (Finset.mem_range.mp ho)]

theorem delta_h_eq_scan (Kd T BT BC : ℕ) (k v : Mat) (be : ℕ → ℚ) (h0 : Option Mat)
    (hBT : 0 < BT) (hBC : 0 < BC) (hdvd : BC ∣ BT) :
    ∀ i a b, chunk_delta_rule_fwd_h Kd T BT BC k (fwd_prepare_w Kd T BT k be)
        (fwd_prepare_u Kd T BT k v be) h0 i a b
      = deltaScan Kd T k v be (initState h0) (i * BT) a b := by
  intro i
  induction i with
  | zero =>
    intro a b
    rw [Nat.zero_mul]
    rfl
  | succ i ih =>
    intro a b
    have hfun : chunk_delta_rule_fwd_h Kd T BT BC k (fwd_prepare_w Kd T BT k be)
        (fwd_prepare_u Kd T BT k v be) h0 i
        = deltaScan Kd T k v be (initState h0) (i * BT) :=
      funext (fun a2 => funext (fun b2 => ih a2 b2))
    show chunk_delta_rule_fwd_upd Kd T BT BC k _ _
      (chunk_delta_rule_fwd_h Kd T BT BC k _ _ h0 i) i a b = _
    rw [hfun, delta_upd_eq_scan Kd T BT BC k v be _ i hBT hBC hdvd a b]
    congr 1
    rw [add_mul, one_mul]

theorem delta_vnew_eq_seq (Kd T BT BC : ℕ) (k v : Mat) (be : ℕ → ℚ)
    (h0 : Option Mat) (hBT : 0 < BT) (hBC : 0 < BC) (hdvd : BC ∣ BT) (t b : ℕ) :
    chunk_delta_rule_v_new Kd T BT BC k (fwd_prepare_w Kd T BT k be)
        (fwd_prepare_u Kd T BT k v be) h0 t b
      = deltaVseq Kd T k v be (initState h0) t b := by
  have hdm : t / BT * BT + t % BT = t := by
    have h1 := Nat.div_add_mod t BT
    have h2 : t / BT * BT = BT * (t / BT) := Nat.mul_comm _ _
    omega
  have hmod : t % BT < BT := Nat.mod_lt _ hBT
  unfold chunk_delta_rule_v_new
  have hfun : chunk_delta_rule_fwd_h Kd T BT BC k (fwd_prepare_w Kd T BT k be)
      (fwd_prepare_u Kd T BT k v be) h0 (t / BT)
      = deltaScan Kd T k v be (initState h0) (t / BT * BT) :=
    funext (fun a2 => funext (fun b2 =>
      delta_h_eq_scan Kd T BT BC k v be h0 hBT hBC hdvd (t / BT) a2 b2))
  rw [hfun]
  have := delta_vrow_eq Kd T BT k v be
    (deltaScan Kd T k v be (initState h0) (t / BT * BT)) (t / BT) (t % BT) b hBT hmod
  rw [hdm] at this
  rw [this]
  unfold deltaVseq deltaVloc
  simp only [← deltaScan_add Kd T k v be (initState h0) (t / BT * BT), hdm]

theorem deltaVseq_eq_loc (Kd T : ℕ) (k v : Mat) (be : ℕ → ℚ) (S0 : Mat)
    (n m b : ℕ) :
    deltaVseq Kd T k v be S0 (n + m) b
      = deltaVloc Kd (fun j => ld T k (n + j)) (fun j => ld T v (n + j))
          (fun j => ldS T be (n + j)) (deltaScan Kd T k v be S0 n) m b := by
  unfold deltaVseq deltaVloc
  simp only [← deltaScan_add Kd T k v be S0 n]

theorem delta_o_spine (Kd T BT BC : ℕ) (scale : ℚ) (q k v : Mat) (be : ℕ → ℚ)
    (h0 : Option Mat) (hBT : 0 < BT) (hBC : 0 < BC) (hdvd : BC ∣ BT)
    (t b : ℕ) (ht : t < T) :
    chunk_delta_rule_fwd_o T BT Kd scale q k
        (chunk_delta_rule_v_new Kd T BT BC k (fwd_prepare_w Kd T BT k be)
          (fwd_prepare_u Kd T BT k v be) h0)
        (chunk_delta_rule_fwd_h Kd T BT BC k (fwd_prepare_w Kd T BT k be)
          (fwd_prepare_u Kd T BT k v be) h0) t b
      = scale * ∑ c in Finset.range Kd,
          ld T q t c * deltaScan Kd T k v be (initState h0) (t + 1) c b := by
  have hdm : t / BT * BT + t % BT = t := by
    have h1 := Nat.div_add_mod t BT
    have h2 : t / BT * BT = BT * (t / BT) := Nat.mul_comm _ _
    omega
  have hoBT : t % BT < BT := Nat.mod_lt _ hBT
  have ht1 : t + 1 = t / BT * BT + (t % BT + 1) := by omega
  rw [ht1, deltaScan_add]
  unfold chunk_delta_rule_fwd_o
  have hH : (∑ c in Finset.range Kd, scale * ld T q t c *
      chunk_delta_rule_fwd_h Kd T BT BC k (fwd_prepare_w Kd T BT k be)
        (fwd_prepare_u Kd T BT k v be) h0 (t / BT) c b)
      = ∑ c in Finset.range Kd, scale * ld T q t c *
          deltaScan Kd T k v be (initState h0) (t / BT * BT) c b := by
    apply Finset.sum_congr rfl
    intro c _
    rw [delta_h_eq_scan Kd T BT BC k v be h0 hBT hBC hdvd (t / BT) c b]
  rw [hH]
  have hmask : (∑ j in Finset.range BT, (if j ≤ t % BT then
        ∑ c in Finset.range Kd, scale * ld T q t c * ld T k (t / BT * BT + j) c
      else 0) * ld T (chunk_delta_rule_v_new Kd T BT BC k
        (fwd_prepare_w Kd T BT k be) (fwd_prepare_u Kd T BT k v be) h0)
        (t / BT * BT + j) b)
      = ∑ j in Finset.range (t % BT + 1),
          (∑ c in Finset.range Kd, scale * ld T q t c * ld T k (t / BT * BT + j) c)
            * deltaVloc Kd (fun j2 => ld T k (t / BT * BT + j2))
                (fun j2 => ld T v (t / BT * BT + j2))
                (fun j2 => ldS T be (t / BT * BT + j2))
                (deltaScan Kd T k v be (initState h0) (t / BT * BT)) j b := by
    simp only [ite_mul, zero_mul]
    rw [sum_range_ite_le _ _ _ hoBT]
    apply Finset.sum_congr rfl
    intro j hj
    have hj' : j ≤ t % BT := by simp only [Finset.mem_range] at hj; omega
    have hlt : t / BT * BT + j < T := by omega
    congr 1
    simp only [ld, if_pos hlt]
    rw [delta_vnew_eq_seq Kd T BT BC k v be h0 hBT hBC hdvd]
    exact deltaVseq_eq_loc Kd T k v be (initState h0) (t / BT * BT) j b
  rw [hmask]
  have hloc : ∀ c, deltaLoc Kd (fun j => ld T k (t / BT * BT + j))
      (fun j => ld T v (t / BT * BT + j)) (fun j => ldS T be (t / BT * BT + j))
      (deltaScan Kd T k v be (initState h0) (t / BT * BT)) (t % BT + 1) c b
      = deltaScan Kd T k v be (initState h0) (t / BT * BT) c b
        + ∑ j in Finset.range (t % BT + 1),
            ld T k (t / BT * BT + j) c *
              deltaVloc Kd (fun j2 => ld T k (t / BT * BT + j2))
                (fun j2 => ld T v (t / BT * BT + j2))
                (fun j2 => ldS T be (t / BT * BT + j2))
                (deltaScan Kd T k v be (initState h0) (t / BT * BT)) j b := by
    intro c
    rw [deltaLoc_closed]
  simp only [hloc, mul_add, add_mul, Finset.mul_sum, Finset.sum_mul,
    Finset.sum_add_distrib]
  rw [Finset.sum_comm]
  congr 1
  · apply Finset.sum_congr rfl
    intro c _
    ring
  · apply Finset.sum_congr rfl
    intro j _
    apply Finset.sum_congr rfl
    intro c _
    ring

theorem nextPow2From_ge (n : ℕ) :
    ∀ fuel p, n ≤ 2 ^ fuel * p → n ≤ nextPow2From n fuel p := by
  intro fuel
  induction fuel with
  | zero => intro p h; simpa using h
  | succ fuel ih =>
    intro p h
    show n ≤ (if n ≤ p then p else nextPow2From n fuel (2 * p))
    by_cases hp : n ≤ p
    · rw [if_pos hp]; exact hp
    · rw [if_neg hp]
      apply ih
      calc n ≤ 2 ^ (fuel + 1) * p := h
        _ = 2 ^ fuel * (2 * p) := by ring

theorem le_nextPow2 (n : ℕ) : n ≤ nextPow2 n := by
  apply nextPow2From_ge
  have h := Nat.lt_two_pow n
  rw [mul_one]
  omega

theorem nextPow2From_pos (n : ℕ) :
    ∀ fuel p, 0 < p → 0 < nextPow2From n fuel p := by
  intro fuel
  induction fuel with
  | zero => intro p h; simpa using h
  | succ fuel ih =>
    intro p h
    show 0 < (if n ≤ p then p else nextPow2From n fuel (2 * p))
    by_cases hp : n ≤ p
    · rw [if_pos hp]; exact h
    · rw [if_neg hp]; exact ih (2 * p) (by omega)

theorem nextPow2_pos (n : ℕ) : 0 < nextPow2 n :=
  nextPow2From_pos n n 1 (by omega)

theorem cdiv_eq_one (K P : ℕ) (hK : 0 < K) (hKP : K ≤ P) : cdiv K P = 1 := by
  unfold cdiv
  have hP : 0 < P := by omega
  apply Nat.div_eq_of_lt_le
  · omega
  · omega

theorem ld_congr (T : ℕ) (x x2 : Mat) (t hi : ℕ) (ht : t ≤ hi)
    (hx : ∀ r, r ≤ hi → ∀ c, x r c = x2 r c) (c : ℕ) :
    ld T x t c = ld T x2 t c := by
  unfold ld
  by_cases hT : t < T
  · rw [if_pos hT, if_pos hT, hx t ht c]
  · rw [if_neg hT, if_neg hT]

theorem ldS_congr (T : ℕ) (x x2 : ℕ → ℚ) (t hi : ℕ) (ht : t ≤ hi)
    (hx : ∀ r, r ≤ hi → x r = x2 r) :
    ldS T x t = ldS T x2 t := by
  unfold ldS
  by_cases hT : t < T
  · rw [if_pos hT, if_pos hT, hx t ht]
  · rw [if_neg hT, if_neg hT]

theorem retScan_congr (g : ℚ) (T : ℕ) (k k2 v v2 : Mat) (S0 : Mat) (hi : ℕ)
    (hk : ∀ r, r ≤ hi → ∀ c, k r c = k2 r c)
    (hv : ∀ r, r ≤ hi → ∀ c, v r c = v2 r c) :
    ∀ u, u ≤ hi + 1 → ∀ a b,
      retScan g T k v S0 u a b = retScan g T k2 v2 S0 u a b := by
  intro u
  induction u with
  | zero => intro _ a b; rfl
  | succ u ih =>
    intro hu a b
    show retStep g (retScan g T k v S0 u) (ld T k u) (ld T v u) a b = _
    unfold retStep
    rw [ih (by omega) a b, ld_congr T k k2 u hi (by omega) hk a,
      ld_congr T v v2 u hi (by omega) hv b]
    rfl

theorem deltaScan_congr (Kd T : ℕ) (k k2 v v2 : Mat) (be be2 : ℕ → ℚ)
    (S0 : Mat) (hi : ℕ)
    (hk : ∀ r, r ≤ hi → ∀ c, k r c = k2 r c)
    (hv : ∀ r, r ≤ hi → ∀ c, v r c = v2 r c)
    (hbe : ∀ r, r ≤ hi → be r = be2 r) :
    ∀ u, u ≤ hi + 1 → ∀ a b,
      deltaScan Kd T k v be S0 u a b = deltaScan Kd T k2 v2 be2 S0 u a b := by
  intro u
  induction u with
  | zero => intro _ a b; rfl
  | succ u ih =>
    intro hu a b
    show deltaStep Kd (deltaScan Kd T k v be S0 u) (ld T k u) (ld T v u)
      (ldS T be u) a b = deltaStep Kd (deltaScan Kd T k2 v2 be2 S0 u)
      (ld T k2 u) (ld T v2 u) (ldS T be2 u) a b
    unfold deltaStep
    rw [ih (by omega) a b, ld_congr T k k2 u hi (by omega) hk a,
      ld_congr T v v2 u hi (by omega) hv b,
      ldS_congr T be be2 u hi (by omega) hbe]
    have hsum : (∑ c in Finset.range Kd, deltaScan Kd T k v be S0 u c b * ld T k u c)
        = ∑ c in Finset.range Kd, deltaScan Kd T k2 v2 be2 S0 u c b * ld T k2 u c := by
      apply Finset.sum_congr rfl
      intro c _
      rw [ih (by omega) c b, ld_congr T k k2 u hi (by omega) hk c]
    rw [hsum]

theorem retScan_T_mono (g : ℚ) (T1 T : ℕ) (k v : Mat) (S0 : Mat) (hT : T1 ≤ T) :
    ∀ u, u ≤ T1 → ∀ a b, retScan g T1 k v S0 u a b = retScan g T k v S0 u a b := by
  intro u
  induction u with
  | zero => intro _ a b; rfl
  | succ u ih =>
    intro hu a b
    show retStep g (retScan g T1 k v S0 u) (ld T1 k u) (ld T1 v u) a b
      = retStep g (retScan g T k v S0 u) (ld T k u) (ld T v u) a b
    unfold retStep ld
    rw [ih (by omega) a b, if_pos (show u < T1 by omega),
      if_pos (show u < T1 by omega), if_pos (show u < T by omega),
      if_pos (show u < T by omega)]

theorem retScan_shift (g : ℚ) (T T1 : ℕ) (k v : Mat) (S0 : Mat) (hT : T1 ≤ T) :
    ∀ s a b, retScan g (T - T1) (fun r => k (T1 + r)) (fun r => v (T1 + r))
        (retScan g T k v S0 T1) s a b
      = retScan g T k v S0 (T1 + s) a b := by
  intro s
  induction s with
  | zero => intro a b; rfl
  | succ s ih =>
    intro a b
    rw [Nat.add_succ]
    show retStep g _ (ld (T - T1) (fun r => k (T1 + r)) s)
        (ld (T - T1) (fun r => v (T1 + r)) s) a b
      = retStep g (retScan g T k v S0 (T1 + s)) (ld T k (T1 + s)) (ld T v (T1 + s)) a b
    unfold retStep ld
    rw [ih a b]
    by_cases hs : s < T - T1
    · rw [if_pos hs, if_pos hs, if_pos (show T1 + s < T by omega),
        if_pos (show T1 + s < T by omega)]
    · rw [if_neg hs, if_neg hs, if_neg (show ¬(T1 + s < T) by omega),
        if_neg (show ¬(T1 + s < T) by omega)]

theorem deltaScan_T_mono (Kd T1 T : ℕ) (k v : Mat) (be : ℕ → ℚ) (S0 : Mat)
    (hT : T1 ≤ T) :
    ∀ u, u ≤ T1 → ∀ a b,
      deltaScan Kd T1 k v be S0 u a b = deltaScan Kd T k v be S0 u a b := by
  intro u
  induction u with
  | zero => intro _ a b; rfl
  | succ u ih =>
    intro hu a b
    show deltaStep Kd (deltaScan Kd T1 k v be S0 u) (ld T1 k u) (ld T1 v u)
        (ldS T1 be u) a b
      = deltaStep Kd (deltaScan Kd T k v be S0 u) (ld T k u) (ld T v u)
        (ldS T be u) a b
    unfold deltaStep ld ldS
    rw [ih (by omega) a b,
      if_pos (show u < T1 by omega), if_pos (show u < T1 by omega),
      if_pos (show u < T1 by omega), if_pos (show u < T by omega),
      if_pos (show u < T by omega), if_pos (show u < T by omega)]
    have hsum : (∑ c in Finset.range Kd,
        deltaScan Kd T1 k v be S0 u c b * (if u < T1 then k u c else 0))
        = ∑ c in Finset.range Kd,
            deltaScan Kd T k v be S0 u c b * (if u < T then k u c else 0) := by
      apply Finset.sum_congr rfl
      intro c _
      rw [ih (by omega) c b, if_pos (show u < T1 by omega),
        if_pos (show u < T by omega)]
    rw [hsum]

theorem deltaScan_shift (Kd T T1 : ℕ) (k v : Mat) (be : ℕ → ℚ) (S0 : Mat)
    (hT : T1 ≤ T) :
    ∀ s a b, deltaScan Kd (T - T1) (fun r => k (T1 + r)) (fun r => v (T1 + r))
        (fun r => be (T1 + r)) (deltaScan Kd T k v be S0 T1) s a b
      = deltaScan Kd T k v be S0 (T1 + s) a b := by
  intro s
  induction s with
  | zero => intro a b; rfl
  | succ s ih =>
    intro a b
    rw [Nat.add_succ]
    show deltaStep Kd _ (ld (T - T1) (fun r => k (T1 + r)) s)
        (ld (T - T1) (fun r => v (T1 + r)) s)
        (ldS (T - T1) (fun r => be (T1 + r)) s) a b
      = deltaStep Kd (deltaScan Kd T k v be S0 (T1 + s)) (ld T k (T1 + s))
        (ld T v (T1 + s)) (ldS T be (T1 + s)) a b
    unfold deltaStep ld ldS
    rw [ih a b]
    have hsum : (∑ c in Finset.range Kd,
        deltaScan Kd (T - T1) (fun r => k (T1 + r)) (fun r => v (T1 + r))
          (fun r => be (T1 + r)) (deltaScan Kd T k v be S0 T1) s c b *
          (if s < T - T1 then (fun r => k (T1 + r)) s c else 0))
        = ∑ c in Finset.range Kd,
            deltaScan Kd T k v be S0 (T1 + s) c b *
              (if T1 + s < T then k (T1 + s) c else 0) := by
      apply Finset.sum_congr rfl
      intro c _
      rw [ih c b]
      by_cases hs : s < T - T1
      · rw [if_pos hs, if_pos (show T1 + s < T by omega)]
      · rw [if_neg hs, if_neg (show ¬(T1 + s < T) by omega)]
    rw [hsum]
    by_cases hs : s < T - T1
    · simp only [if_pos hs, if_pos (show T1 + s < T by omega)]
    · simp only [if_neg hs, if_neg (show ¬(T1 + s < T) by omega)]

theorem ret_final_eq_scan (hh T BT : ℕ) (k v : Mat) (h0 : Option Mat)
    (hBT : 0 < BT) (a b : ℕ) :
    chunk_retention_fwd_h hh T BT k v h0 (NTof T BT) a b
      = retScan (decayRate hh) T k v (initState h0) T a b := by
  rw [ret_h_eq_scan hh T BT k v h0 hBT (NTof T BT) (le_refl _) a b,
    min_eq_right (NT_mul_ge T BT hBT)]

theorem delta_final_eq_scan (Kd T BT BC : ℕ) (k v : Mat) (be : ℕ → ℚ)
    (h0 : Option Mat) (hBT : 0 < BT) (hBC : 0 < BC) (hdvd : BC ∣ BT) (a b : ℕ) :
    chunk_delta_rule_fwd_h Kd T BT BC k (fwd_prepare_w Kd T BT k be)
        (fwd_prepare_u Kd T BT k v be) h0 (NTof T BT) a b
      = deltaScan Kd T k v be (initState h0) T a b := by
  rw [delta_h_eq_scan Kd T BT BC k v be h0 hBT hBC hdvd (NTof T BT) a b]
  have e : NTof T BT * BT = T + (NTof T BT * BT - T) := by
    have h2 := NT_mul_ge T BT hBT
    omega
  rw [e]
  exact deltaScan_past Kd T k v be (initState h0) (NTof T BT * BT - T) a b

/-- C4: Output formula. For every chunk and position, the retention output
kernel computes `scale * (Q_i · H[i] · decay_query + S · V_i)` with
`S = mask_causal(Q_i K_i^T)` lower-triangular inclusive, score `(o, j)`
weighted by `rate^(o-j)` and the cross-chunk term by the per-position
decay `rate^(o+1)`; the delta-rule output kernel computes the same formula
with no decay weights and with the corrected value as `V_i`. -/
theorem claim_C4_output_formula (hh Kd T BT : ℕ) (scale : ℚ)
    (q k v vnew : Mat) (h : ℕ → Mat) (h0 : Option Mat) (t b : ℕ) :
    chunk_retention_fwd_o hh T BT Kd scale q k v h0 t b
        = outputSpecRetention hh Kd T BT scale q k v
            (chunk_retention_fwd_h hh T BT k v h0) t b
      ∧ chunk_delta_rule_fwd_o T BT Kd scale q k vnew h t b
        = outputSpecDelta Kd T BT scale q k vnew h t b := by
  have hdm : t / BT * BT + t % BT = t := by
    have h1 := Nat.div_add_mod t BT
    have h2 : t / BT * BT = BT * (t / BT) := Nat.mul_comm _ _
    omega
  constructor
  · unfold chunk_retention_fwd_o outputSpecRetention maskCausal
    rw [mul_comm]
    congr 1
    congr 1
    apply Finset.sum_congr rfl
    intro j _
    by_cases hj : j ≤ t % BT
    · rw [if_pos hj, if_pos hj]
      simp only [hdm]
    · rw [if_neg hj, if_neg hj]
      ring
  · unfold chunk_delta_rule_fwd_o outputSpecDelta maskCausal
    rw [mul_add]
    congr 1
    · rw [Finset.mul_sum]
      apply Finset.sum_congr rfl
      intro c _
      ring
    · rw [Finset.mul_sum]
      apply Finset.sum_congr rfl
      intro j _
      by_cases hj : j ≤ t % BT
      · rw [if_pos hj, if_pos hj]
        simp only [hdm]
        rw [Finset.sum_mul, Finset.sum_mul, Finset.mul_sum]
        apply Finset.sum_congr rfl
        intro c _
        ring
      · rw [if_neg hj, if_neg hj]
        ring

/-- C7: For every forward call of either variant, the stored state
snapshot for chunk 0 equals the externally supplied initial state, and
equals zero when no initial state is supplied. -/
theorem claim_C7_first_snapshot (hh Kd T BT BC : ℕ) (k v w u : Mat)
    (s0 : Mat) (a b : ℕ) :
    chunk_retention_fwd_h hh T BT k v (some s0) 0 a b = s0 a b
      ∧ chunk_retention_fwd_h hh T BT k v none 0 a b = 0
      ∧ chunk_delta_rule_fwd_h Kd T BT BC k w u (some s0) 0 a b = s0 a b
      ∧ chunk_delta_rule_fwd_h Kd T BT BC k w u none 0 a b = 0 :=
  ⟨rfl, rfl, rfl, rfl⟩

/-- C10: Decay monotonicity (retention only): the per-head derived
geometric decay rate `1 - 2^(-5-h)` strictly increases with the head
index; in particular for `h1 < h2` it is `≤` and `<`. -/
theorem claim_C10_decay_monotone (h1 h2 : ℕ) (h : h1 < h2) :
    decayRate h1 ≤ decayRate h2 ∧ decayRate h1 < decayRate h2 := by
  have hlt : (1 / 2 : ℚ) ^ (5 + h2) < (1 / 2 : ℚ) ^ (5 + h1) := by
    apply pow_lt_pow_right_of_lt_one₀ (by norm_num) (by norm_num) (by omega)
  constructor
  · unfold decayRate; linarith
  · unfold decayRate; linarith

/-- C10 witness at head indices 0 and 1. -/
theorem claim_C10_decay_monotone_witness :
    (0:ℕ) < 1 ∧ (decayRate 0 ≤ decayRate 1 ∧ decayRate 0 < decayRate 1) :=
  ⟨by decide, claim_C10_decay_monotone 0 1 (by decide)⟩

/-- C3 counterexample: the claim asserts every forward call of either
variant fails with a ConfigurationError when a single K tile does not
cover the key dimension; the retention driver at K = 128 computes BK = 64,
NK = 2 (two K tiles) and raises nothing — the launch proceeds. -/
theorem claim_C3_counterexample :
    chunk_fwd_h_fn_NK 128 = Except.ok 2 ∧ (2 : ℕ) ≠ 1 := by
  constructor
  · rfl
  · decide

/-- C3 amended: only the delta-rule forward driver validates the K tiling
(failing exactly when next_power_of_2(K) exceeds 256, since otherwise its
single K tile of width next_power_of_2(K) covers K); the retention forward
driver performs no K-tiling validation and always proceeds, with
`cdiv(K, min(64, next_power_of_2 K))` K tiles. -/
theorem claim_C3_ktile_validation (K : ℕ) (hK : 0 < K) :
    (256 < nextPow2 K → ∃ e, chunk_delta_rule_fwd_h_fn_NK K = Except.error e)
      ∧ (nextPow2 K ≤ 256 → chunk_delta_rule_fwd_h_fn_NK K = Except.ok 1)
      ∧ chunk_fwd_h_fn_NK K = Except.ok (cdiv K (min 64 (nextPow2 K))) := by
  refine ⟨?_, ?_, rfl⟩
  · intro h
    unfold chunk_delta_rule_fwd_h_fn_NK
    rw [if_pos (show ¬(nextPow2 K ≤ 256) by omega)]
    exact ⟨_, rfl⟩
  · intro h
    unfold chunk_delta_rule_fwd_h_fn_NK
    rw [if_neg (not_not_intro h),
      if_neg (not_not_intro (cdiv_eq_one K (nextPow2 K) hK (le_nextPow2 K)))]

/-- C3 witness at K = 300 (next power of two 512 exceeds 256). -/
theorem claim_C3_ktile_validation_witness :
    (0:ℕ) < 300 ∧
    ((256 < nextPow2 300 → ∃ e, chunk_delta_rule_fwd_h_fn_NK 300 = Except.error e)
      ∧ (nextPow2 300 ≤ 256 → chunk_delta_rule_fwd_h_fn_NK 300 = Except.ok 1)
      ∧ chunk_fwd_h_fn_NK 300 = Except.ok (cdiv 300 (min 64 (nextPow2 300)))) :=
  ⟨by decide, claim_C3_ktile_validation 300 (by decide)⟩

/-- C9 counterexample: the claim asserts every float32-main-path call of
either variant is rejected with a PrecisionError; the retention entry
point's validation accepts float32 q, k, v of rank 4, since it checks only
rank and dtype equality. -/
theorem claim_C9_counterexample :
    chunk_retention_validate DType.float32 DType.float32 DType.float32 4 4 4
      = Except.ok () := rfl

/-- C9 amended: only the delta-rule entry point rejects the widest float
type — every call that passes `chunk_delta_rule`'s validation (which runs
before any computation) has a non-float32 main data path — while the
retention entry point performs no precision check and accepts float32. -/
theorem claim_C9_precision_check (qd kd vd : DType) (bd : ℕ)
    (h : chunk_delta_rule_validate qd kd vd bd = Except.ok ()) :
    qd ≠ DType.float32
      ∧ chunk_retention_validate DType.float32 DType.float32 DType.float32 4 4 4
          = Except.ok () := by
  constructor
  · intro hq
    unfold chunk_delta_rule_validate at h
    rw [hq] at h
    by_cases h1 : DType.float32 = kd ∧ kd = vd
    · rw [if_neg (not_not_intro h1), if_pos rfl] at h
      simp at h
    · rw [if_pos h1] at h
      simp at h
  · rfl

/-- C9 witness: a bfloat16 call passes the delta-rule validation and is
not float32, while the float32 retention call passes retention
validation. -/
theorem claim_C9_precision_check_witness :
    chunk_delta_rule_validate DType.bfloat16 DType.bfloat16 DType.bfloat16 3
        = Except.ok ()
      ∧ (DType.bfloat16 ≠ DType.float32
          ∧ chunk_retention_validate DType.float32 DType.float32 DType.float32 4 4 4
              = Except.ok ()) :=
  ⟨rfl, claim_C9_precision_check DType.bfloat16 DType.bfloat16 DType.bfloat16 3 rfl⟩

/-- C1: Causality: for both variants, if two input sets agree on Q, K, V
(and, for the delta rule, beta) at all positions up to `t` and share the
initial state, then the outputs agree at every position `s ≤ t`; inputs
may differ arbitrarily at positions past `t`. -/
theorem claim_C1_causality (hh Kd T BT BC : ℕ) (scale : ℚ)
    (q q2 k k2 v v2 : Mat) (be be2 : ℕ → ℚ) (h0 : Option Mat) (t s b : ℕ)
    (hBT : 0 < BT) (hBC : 0 < BC) (hdvd : BC ∣ BT)
    (hq : ∀ r, r ≤ t → ∀ c, q r c = q2 r c)
    (hk : ∀ r, r ≤ t → ∀ c, k r c = k2 r c)
    (hv : ∀ r, r ≤ t → ∀ c, v r c = v2 r c)
    (hbe : ∀ r, r ≤ t → be r = be2 r)
    (hs : s ≤ t) (hsT : s < T) :
    chunk_retention_fwd_o hh T BT Kd scale q k v h0 s b
        = chunk_retention_fwd_o hh T BT Kd scale q2 k2 v2 h0 s b
      ∧ (chunk_delta_rule_fwd_model Kd T BT BC scale q k v be h0 false 1).o s b
        = (chunk_delta_rule_fwd_model Kd T BT BC scale q2 k2 v2 be2 h0 false 1).o s b := by
  constructor
  · rw [ret_o_spine hh T BT Kd scale q k v h0 hBT s b hsT,
      ret_o_spine hh T BT Kd scale q2 k2 v2 h0 hBT s b hsT]
    congr 1
    apply Finset.sum_congr rfl
    intro c _
    rw [ld_congr T q q2 s t hs hq c,
      retScan_congr (decayRate hh) T k k2 v v2 (initState h0) t hk hv (s + 1)
        (by omega) c b]
  · simp only [chunk_delta_rule_fwd_model]
    rw [delta_o_spine Kd T BT BC scale q k v be h0 hBT hBC hdvd s b hsT,
      delta_o_spine Kd T BT BC scale q2 k2 v2 be2 h0 hBT hBC hdvd s b hsT]
    congr 1
    apply Finset.sum_congr rfl
    intro c _
    rw [ld_congr T q q2 s t hs hq c,
      deltaScan_congr Kd T k k2 v v2 be be2 (initState h0) t hk hv hbe (s + 1)
        (by omega) c b]

/-- C1 witness: two input sets agreeing at time 0 and differing at time 1,
over T = 2, BT = 2, BC = 1. -/
theorem claim_C1_causality_witness :
    (0:ℕ) < 2 ∧ (0:ℕ) < 1 ∧ (1:ℕ) ∣ 2 ∧ (0:ℕ) ≤ 0 ∧ (0:ℕ) < 2 ∧
    (chunk_retention_fwd_o 0 2 2 1 1 witQ witK witV none 0 0
        = chunk_retention_fwd_o 0 2 2 1 1 witQ2 witK2 witV2 none 0 0
      ∧ (chunk_delta_rule_fwd_model 1 2 2 1 1 witQ witK witV witBe none false 1).o 0 0
        = (chunk_delta_rule_fwd_model 1 2 2 1 1 witQ2 witK2 witV2 witBe2 none false 1).o 0 0) := by
  refine ⟨by decide, by decide, by decide, by decide, by decide, ?_⟩
  exact claim_C1_causality 0 1 2 2 1 1 witQ witQ2 witK witK2 witV witV2 witBe witBe2
    none 0 0 0 (by decide) (by decide) (by decide)
    (fun r hr c => by
      have h0 : r = 0 := Nat.le_zero.mp hr
      subst h0
      rfl)
    (fun r hr c => by
      have h0 : r = 0 := Nat.le_zero.mp hr
      subst h0
      rfl)
    (fun r hr c => by
      have h0 : r = 0 := Nat.le_zero.mp hr
      subst h0
      rfl)
    (fun r hr => by
      have h0 : r = 0 := Nat.le_zero.mp hr
      subst h0
      rfl)
    (by decide) (by decide)

/-- C6: Delta-rule sub-tiled forward staging: the kernel computes every
sub-tile's corrected value against the chunk-entry state and updates the
running state exactly once per chunk, by adding the chunk-local
accumulator (first conjunct, the definitional shape of the kernel); and
this staging is equivalent to the exact sequential one-step
state-correction recurrence: the snapshots equal the sequential state at
the chunk boundaries and the stored corrected values equal the
sequentially corrected values (second and third conjuncts). -/
theorem claim_C6_subtile_staging (Kd T BT BC : ℕ) (k v w u : Mat)
    (be : ℕ → ℚ) (h0 : Option Mat) (i t a b : ℕ)
    (hBT : 0 < BT) (hBC : 0 < BC) (hdvd : BC ∣ BT) :
    (chunk_delta_rule_fwd_h Kd T BT BC k w u h0 (i + 1) a b
        = chunk_delta_rule_fwd_h Kd T BT BC k w u h0 i a b
          + ∑ ic in Finset.range (cdiv BT BC), ∑ j in Finset.range BC,
              ld T k (i * BT + (ic * BC + j)) a *
                (ld T u (i * BT + (ic * BC + j)) b
                  - ∑ c in Finset.range Kd, ld T w (i * BT + (ic * BC + j)) c *
                      chunk_delta_rule_fwd_h Kd T BT BC k w u h0 i c b))
      ∧ chunk_delta_rule_fwd_h Kd T BT BC k (fwd_prepare_w Kd T BT k be)
            (fwd_prepare_u Kd T BT k v be) h0 i a b
          = deltaScan Kd T k v be (initState h0) (i * BT) a b
      ∧ chunk_delta_rule_v_new Kd T BT BC k (fwd_prepare_w Kd T BT k be)
            (fwd_prepare_u Kd T BT k v be) h0 t b
          = deltaVseq Kd T k v be (initState h0) t b :=
  ⟨rfl, delta_h_eq_scan Kd T BT BC k v be h0 hBT hBC hdvd i a b,
    delta_vnew_eq_seq Kd T BT BC k v be h0 hBT hBC hdvd t b⟩

/-- C6 witness at Kd = 1, T = 2, BT = 2, BC = 1, chunk 1, time 1. -/
theorem claim_C6_subtile_staging_witness :
    (0:ℕ) < 2 ∧ (0:ℕ) < 1 ∧ (1:ℕ) ∣ 2 ∧
    ((chunk_delta_rule_fwd_h 1 2 2 1 witK witK2 witV2 none (1 + 1) 0 0
        = chunk_delta_rule_fwd_h 1 2 2 1 witK witK2 witV2 none 1 0 0
          + ∑ ic in Finset.range (cdiv 2 1), ∑ j in Finset.range 1,
              ld 2 witK (1 * 2 + (ic * 1 + j)) 0 *
                (ld 2 witV2 (1 * 2 + (ic * 1 + j)) 0
                  - ∑ c in Finset.range 1, ld 2 witK2 (1 * 2 + (ic * 1 + j)) c *
                      chunk_delta_rule_fwd_h 1 2 2 1 witK witK2 witV2 none 1 c 0))
      ∧ chunk_delta_rule_fwd_h 1 2 2 1 witK (fwd_prepare_w 1 2 2 witK witBe)
            (fwd_prepare_u 1 2 2 witK witV witBe) none 1 0 0
          = deltaScan 1 2 witK witV witBe (initState none) (1 * 2) 0 0
      ∧ chunk_delta_rule_v_new 1 2 2 1 witK (fwd_prepare_w 1 2 2 witK witBe)
            (fwd_prepare_u 1 2 2 witK witV witBe) none 1 0
          = deltaVseq 1 2 witK witV witBe (initState none) 1 0) :=
  ⟨by decide, by decide, by decide,
    claim_C6_subtile_staging 1 2 2 1 witK witV witK2 witV2 witBe none 1 1 0 0
      (by decide) (by decide) (by decide)⟩

/-- C5: Backward reverse recurrence: for both variants the backward state
kernel starts its accumulator from the final-state gradient (zero when
none is supplied, so the snapshot of the last chunk equals that
initialisation), iterates chunks from last to first storing the
accumulator as dH[i] before folding in chunk i's local contribution (the
recurrence equations relating consecutive snapshots), and after the loop
emits the accumulator as the initial-state gradient exactly when one is
requested. -/
theorem claim_C5_backward_recurrence (hh Kd T BT BC : ℕ) (scale : ℚ)
    (q k d dv dout : Mat) (dht : Option Mat) (s0 : Mat) (reqGrad : Bool)
    (i a b : ℕ) (hBT : 0 < BT) (hi : i + 1 < NTof T BT) :
    (chunk_retention_bwd_dh hh T BT scale q dout dht (NTof T BT - 1) a b
        = initState dht a b)
      ∧ (chunk_retention_bwd_dh hh T BT scale q dout dht i a b
          = chunk_retention_bwd_upd hh T BT scale q dout
              (chunk_retention_bwd_dh hh T BT scale q dout dht (i + 1)) (i + 1) a b)
      ∧ (chunk_retention_bwd_dh0 hh T BT scale q dout dht a b
          = chunk_retention_bwd_upd hh T BT scale q dout
              (chunk_retention_bwd_dh hh T BT scale q dout dht 0) 0 a b)
      ∧ chunk_bwd_dh_fn_dh0 hh T BT scale q dout (some s0) dht
          = some (chunk_retention_bwd_dh0 hh T BT scale q dout dht)
      ∧ chunk_bwd_dh_fn_dh0 hh T BT scale q dout none dht = none
      ∧ (chunk_delta_rule_bwd_dh Kd T BT BC scale q k d dv dout dht
            (NTof T BT - 1) a b = initState dht a b)
      ∧ (chunk_delta_rule_bwd_dh Kd T BT BC scale q k d dv dout dht i a b
          = chunk_delta_rule_bwd_upd Kd T BT BC scale q k d dv dout
              (chunk_delta_rule_bwd_dh Kd T BT BC scale q k d dv dout dht (i + 1))
              (i + 1) a b)
      ∧ (chunk_delta_rule_bwd_dh0 Kd T BT BC scale q k d dv dout dht a b
          = chunk_delta_rule_bwd_upd Kd T BT BC scale q k d dv dout
              (chunk_delta_rule_bwd_dh Kd T BT BC scale q k d dv dout dht 0) 0 a b)
      ∧ chunk_delta_rule_bwd_dh0_opt Kd T BT BC scale q k d dv dout dht
          (some s0) true
          = some (chunk_delta_rule_bwd_dh0 Kd T BT BC scale q k d dv dout dht)
      ∧ chunk_delta_rule_bwd_dh0_opt Kd T BT BC scale q k d dv dout dht
          none reqGrad = none := by
  have e1 : NTof T BT - 1 - (NTof T BT - 1) = 0 := by omega
  have e2 : NTof T BT - 1 - i = (NTof T BT - 2 - i) + 1 := by omega
  have e3 : NTof T BT - 1 - (NTof T BT - 2 - i) = i + 1 := by omega
  have e4 : NTof T BT - 2 - i = NTof T BT - 1 - (i + 1) := by omega
  have e5 : NTof T BT = (NTof T BT - 1) + 1 := by omega
  refine ⟨?_, ?_, ?_, rfl, rfl, ?_, ?_, ?_, rfl, ?_⟩
  · unfold chunk_retention_bwd_dh
    rw [e1]
    rfl
  · unfold chunk_retention_bwd_dh
    conv_lhs => rw [e2]
    show chunk_retention_bwd_upd hh T BT scale q dout
      (chunk_retention_bwd_acc hh T BT scale q dout dht (NTof T BT - 2 - i))
      (NTof T BT - 1 - (NTof T BT - 2 - i)) a b = _
    rw [e3, e4]
  · unfold chunk_retention_bwd_dh0 chunk_retention_bwd_dh
    conv_lhs => rw [e5]
    show chunk_retention_bwd_upd hh T BT scale q dout
      (chunk_retention_bwd_acc hh T BT scale q dout dht (NTof T BT - 1))
      (NTof T BT - 1 - (NTof T BT - 1)) a b = _
    rw [e1]
    rfl
  · unfold chunk_delta_rule_bwd_dh
    rw [e1]
    rfl
  · unfold chunk_delta_rule_bwd_dh
    conv_lhs => rw [e2]
    show chunk_delta_rule_bwd_upd Kd T BT BC scale q k d dv dout
      (chunk_delta_rule_bwd_acc Kd T BT BC scale q k d dv dout dht (NTof T BT - 2 - i))
      (NTof T BT - 1 - (NTof T BT - 2 - i)) a b = _
    rw [e3, e4]
  · unfold chunk_delta_rule_bwd_dh0 chunk_delta_rule_bwd_dh
    conv_lhs => rw [e5]
    show chunk_delta_rule_bwd_upd Kd T BT BC scale q k d dv dout
      (chunk_delta_rule_bwd_acc Kd T BT BC scale q k d dv dout dht (NTof T BT - 1))
      (NTof T BT - 1 - (NTof T BT - 1)) a b = _
    rw [e1]
    rfl
  · unfold chunk_delta_rule_bwd_dh0_opt
    cases reqGrad <;> rfl

/-- C5 witness over T = 4, BT = 2 (two chunks), snapshot index 0. -/
theorem claim_C5_backward_recurrence_witness :
    (0:ℕ) < 2 ∧ (0:ℕ) + 1 < NTof 4 2 ∧
    ((chunk_retention_bwd_dh 0 4 2 1 witQ witV none (NTof 4 2 - 1) 0 0
        = initState none 0 0)
      ∧ (chunk_retention_bwd_dh 0 4 2 1 witQ witV none 0 0 0
          = chunk_retention_bwd_upd 0 4 2 1 witQ witV
              (chunk_retention_bwd_dh 0 4 2 1 witQ witV none (0 + 1)) (0 + 1) 0 0)
      ∧ (chunk_retention_bwd_dh0 0 4 2 1 witQ witV none 0 0
          = chunk_retention_bwd_upd 0 4 2 1 witQ witV
              (chunk_retention_bwd_dh 0 4 2 1 witQ witV none 0) 0 0 0)
      ∧ chunk_bwd_dh_fn_dh0 0 4 2 1 witQ witV (some witS) none
          = some (chunk_retention_bwd_dh0 0 4 2 1 witQ witV none)
      ∧ chunk_bwd_dh_fn_dh0 0 4 2 1 witQ witV none none = none
      ∧ (chunk_delta_rule_bwd_dh 1 4 2 1 1 witQ witK witK2 witV2 witV none
            (NTof 4 2 - 1) 0 0 = initState none 0 0)
      ∧ (chunk_delta_rule_bwd_dh 1 4 2 1 1 witQ witK witK2 witV2 witV none 0 0 0
          = chunk_delta_rule_bwd_upd 1 4 2 1 1 witQ witK witK2 witV2 witV
              (chunk_delta_rule_bwd_dh 1 4 2 1 1 witQ witK witK2 witV2 witV none (0 + 1))
              (0 + 1) 0 0)
      ∧ (chunk_delta_rule_bwd_dh0 1 4 2 1 1 witQ witK witK2 witV2 witV none 0 0
          = chunk_delta_rule_bwd_upd 1 4 2 1 1 witQ witK witK2 witV2 witV
              (chunk_delta_rule_bwd_dh 1 4 2 1 1 witQ witK witK2 witV2 witV none 0) 0 0 0)
      ∧ chunk_delta_rule_bwd_dh0_opt 1 4 2 1 1 witQ witK witK2 witV2 witV none
          (some witS) true
          = some (chunk_delta_rule_bwd_dh0 1 4 2 1 1 witQ witK witK2 witV2 witV none)
      ∧ chunk_delta_rule_bwd_dh0_opt 1 4 2 1 1 witQ witK witK2 witV2 witV none
          none false = none) :=
  ⟨by decide, by decide,
    claim_C5_backward_recurrence 0 1 4 2 1 1 witQ witK witK2 witV2 witV none witS
      false 0 0 0 (by decide) (by decide)⟩

/-- C8: Checkpoint-vs-recompute equivalence: the forward output does not
depend on the checkpoint level, and the backward pass run on the
checkpoint-level-1 forward outputs (snapshots and corrected values
dropped, so both are recomputed from K, V, beta and the initial state)
produces exactly the same gradient bundle as when run on the
checkpoint-level-0 outputs (snapshots retained), for every external
WY-gradient collaborator. -/
theorem claim_C8_checkpoint_equiv (Kd Vd T BT BC : ℕ) (scale : ℚ)
    (q k v : Mat) (be : ℕ → ℚ) (h0 : Option Mat) (reqGrad : Bool)
    (dout : Mat) (dht : Option Mat) (wyBwd : WyBwd) (outputFinal : Bool) :
    (chunk_delta_rule_fwd_model Kd T BT BC scale q k v be h0 outputFinal 1).o
        = (chunk_delta_rule_fwd_model Kd T BT BC scale q k v be h0 outputFinal 0).o
      ∧ chunk_delta_rule_bwd_model Kd Vd T BT BC scale q k v be
          (fwd_prepare_A Kd T BT k be)
          (chunk_delta_rule_fwd_model Kd T BT BC scale q k v be h0 outputFinal 0).hSnap
          (chunk_delta_rule_fwd_model Kd T BT BC scale q k v be h0 outputFinal 0).vnewSnap
          h0 reqGrad dout dht wyBwd
        = chunk_delta_rule_bwd_model Kd Vd T BT BC scale q k v be
          (fwd_prepare_A Kd T BT k be)
          (chunk_delta_rule_fwd_model Kd T BT BC scale q k v be h0 outputFinal 1).hSnap
          (chunk_delta_rule_fwd_model Kd T BT BC scale q k v be h0 outputFinal 1).vnewSnap
          h0 reqGrad dout dht wyBwd :=
  ⟨rfl, rfl⟩

/-- C2: State-chain correctness, in exact arithmetic: for either variant,
running the transform on [0, T1) with the final state requested and then
on [T1, T) with that final state as the initial state reproduces the
single call over [0, T): the first call's outputs match the single call's
outputs before T1, the second call's outputs match them from T1 on, and
the chained final state equals the single call's final state. -/
theorem claim_C2_state_chain (hh Kd T T1 BT BC : ℕ) (scale : ℚ)
    (q k v : Mat) (be : ℕ → ℚ) (h0 : Option Mat) (t s a b : ℕ)
    (hBT : 0 < BT) (hBC : 0 < BC) (hdvd : BC ∣ BT) (hT1 : T1 ≤ T)
    (ht : t < T1) (hs : s < T - T1) :
    chunk_retention_fwd_o hh T1 BT Kd scale q k v h0 t b
        = chunk_retention_fwd_o hh T BT Kd scale q k v h0 t b
      ∧ chunk_retention_fwd_o hh (T - T1) BT Kd scale (fun r => q (T1 + r))
          (fun r => k (T1 + r)) (fun r => v (T1 + r))
          (some (chunk_retention_fwd_h hh T1 BT k v h0 (NTof T1 BT))) s b
        = chunk_retention_fwd_o hh T BT Kd scale q k v h0 (T1 + s) b
      ∧ chunk_retention_fwd_h hh (T - T1) BT (fun r => k (T1 + r))
          (fun r => v (T1 + r))
          (some (chunk_retention_fwd_h hh T1 BT k v h0 (NTof T1 BT)))
          (NTof (T - T1) BT) a b
        = chunk_retention_fwd_h hh T BT k v h0 (NTof T BT) a b
      ∧ (chunk_delta_rule_fwd_model Kd T1 BT BC scale q k v be h0 true 1).o t b
        = (chunk_delta_rule_fwd_model Kd T BT BC scale q k v be h0 true 1).o t b
      ∧ (chunk_delta_rule_fwd_model Kd (T - T1) BT BC scale (fun r => q (T1 + r))
          (fun r => k (T1 + r)) (fun r => v (T1 + r)) (fun r => be (T1 + r))
          (some (chunk_delta_rule_fwd_h Kd T1 BT BC k (fwd_prepare_w Kd T1 BT k be)
            (fwd_prepare_u Kd T1 BT k v be) h0 (NTof T1 BT))) true 1).o s b
        = (chunk_delta_rule_fwd_model Kd T BT BC scale q k v be h0 true 1).o (T1 + s) b
      ∧ chunk_delta_rule_fwd_h Kd (T - T1) BT BC (fun r => k (T1 + r))
          (fwd_prepare_w Kd (T - T1) BT (fun r => k (T1 + r)) (fun r => be (T1 + r)))
          (fwd_prepare_u Kd (T - T1) BT (fun r => k (T1 + r)) (fun r => v (T1 + r))
            (fun r => be (T1 + r)))
          (some (chunk_delta_rule_fwd_h Kd T1 BT BC k (fwd_prepare_w Kd T1 BT k be)
            (fwd_prepare_u Kd T1 BT k v be) h0 (NTof T1 BT)))
          (NTof (T - T1) BT) a b
        = chunk_delta_rule_fwd_h Kd T BT BC k (fwd_prepare_w Kd T BT k be)
            (fwd_prepare_u Kd T BT k v be) h0 (NTof T BT) a b := by
  have htT : t < T := by omega
  have hinitR : initState (some (chunk_retention_fwd_h hh T1 BT k v h0 (NTof T1 BT)))
      = retScan (decayRate hh) T k v (initState h0) T1 := by
    funext a2 b2
    show chunk_retention_fwd_h hh T1 BT k v h0 (NTof T1 BT) a2 b2 = _
    rw [ret_final_eq_scan hh T1 BT k v h0 hBT a2 b2,
      retScan_T_mono (decayRate hh) T1 T k v (initState h0) hT1 T1 (le_refl _) a2 b2]
  have hinitD : initState (some (chunk_delta_rule_fwd_h Kd T1 BT BC k
        (fwd_prepare_w Kd T1 BT k be) (fwd_prepare_u Kd T1 BT k v be) h0 (NTof T1 BT)))
      = deltaScan Kd T k v be (initState h0) T1 := by
    funext a2 b2
    show chunk_delta_rule_fwd_h Kd T1 BT BC k (fwd_prepare_w Kd T1 BT k be)
      (fwd_prepare_u Kd T1 BT k v be) h0 (NTof T1 BT) a2 b2 = _
    rw [delta_final_eq_scan Kd T1 BT BC k v be h0 hBT hBC hdvd a2 b2,
      deltaScan_T_mono Kd T1 T k v be (initState h0) hT1 T1 (le_refl _) a2 b2]
  refine ⟨?_, ?_, ?_, ?_, ?_, ?_⟩
  · rw [ret_o_spine hh T1 BT Kd scale q k v h0 hBT t b ht,
      ret_o_spine hh T BT Kd scale q k v h0 hBT t b htT]
    congr 1
    apply Finset.sum_congr rfl
    intro c _
    unfold ld
    rw [if_pos (show t < T1 by omega), if_pos (show t < T by omega),
      retScan_T_mono (decayRate hh) T1 T k v (initState h0) hT1 (t + 1) (by omega) c b]
  · rw [ret_o_spine hh (T - T1) BT Kd scale _ _ _ _ hBT s b hs,
      ret_o_spine hh T BT Kd scale q k v h0 hBT (T1 + s) b (by omega), hinitR]
    congr 1
    apply Finset.sum_congr rfl
    intro c _
    rw [retScan_shift (decayRate hh) T T1 k v (initState h0) hT1 (s + 1) c b]
    unfold ld
    rw [if_pos (show s < T - T1 by omega), if_pos (show T1 + s < T by omega)]
    rfl
  · rw [ret_final_eq_scan hh (T - T1) BT _ _ _ hBT a b, hinitR,
      ret_final_eq_scan hh T BT k v h0 hBT a b,
      retScan_shift (decayRate hh) T T1 k v (initState h0) hT1 (T - T1) a b,
      show T1 + (T - T1) = T by omega]
  · simp only [chunk_delta_rule_fwd_model]
    rw [delta_o_spine Kd T1 BT BC scale q k v be h0 hBT hBC hdvd t b ht,
      delta_o_spine Kd T BT BC scale q k v be h0 hBT hBC hdvd t b htT]
    congr 1
    apply Finset.sum_congr rfl
    intro c _
    unfold ld
    rw [if_pos (show t < T1 by omega), if_pos (show t < T by omega),
      deltaScan_T_mono Kd T1 T k v be (initState h0) hT1 (t + 1) (by omega) c b]
  · simp only [chunk_delta_rule_fwd_model]
    rw [delta_o_spine Kd (T - T1) BT BC scale _ _ _ _ _ hBT hBC hdvd s b hs,
      delta_o_spine Kd T BT BC scale q k v be h0 hBT hBC hdvd (T1 + s) b (by omega),
      hinitD]
    congr 1
    apply Finset.sum_congr rfl
    intro c _
    rw [deltaScan_shift Kd T T1 k v be (initState h0) hT1 (s + 1) c b]
    unfold ld
    rw [if_pos (show s < T - T1 by omega), if_pos (show T1 + s < T by omega)]
    rfl
  · rw [delta_final_eq_scan Kd (T - T1) BT BC _ _ _ _ hBT hBC hdvd a b, hinitD,
      delta_final_eq_scan Kd T BT BC k v be h0 hBT hBC hdvd a b,
      deltaScan_shift Kd T T1 k v be (initState h0) hT1 (T - T1) a b,
      show T1 + (T - T1) = T by omega]

/-- C2 witness: T = 3 split at T1 = 1, BT = 2, BC = 1. -/
theorem claim_C2_state_chain_witness :
    (0:ℕ) < 2 ∧ (0:ℕ) < 1 ∧ (1:ℕ) ∣ 2 ∧ (1:ℕ) ≤ 3 ∧ (0:ℕ) < 1 ∧ (0:ℕ) < 3 - 1 ∧
    (chunk_retention_fwd_o 0 1 2 1 1 witQ witK witV none 0 0
        = chunk_retention_fwd_o 0 3 2 1 1 witQ witK witV none 0 0
      ∧ chunk_retention_fwd_o 0 (3 - 1) 2 1 1 (fun r => witQ (1 + r))
          (fun r => witK (1 + r)) (fun r => witV (1 + r))
          (some (chunk_retention_fwd_h 0 1 2 witK witV none (NTof 1 2))) 0 0
        = chunk_retention_fwd_o 0 3 2 1 1 witQ witK witV none (1 + 0) 0
      ∧ chunk_retention_fwd_h 0 (3 - 1) 2 (fun r => witK (1 + r))
          (fun r => witV (1 + r))
          (some (chunk_retention_fwd_h 0 1 2 witK witV none (NTof 1 2)))
          (NTof (3 - 1) 2) 0 0
        = chunk_retention_fwd_h 0 3 2 witK witV none (NTof 3 2) 0 0
      ∧ (chunk_delta_rule_fwd_model 1 1 2 1 1 witQ witK witV witBe none true 1).o 0 0
        = (chunk_delta_rule_fwd_model 1 3 2 1 1 witQ witK witV witBe none true 1).o 0 0
      ∧ (chunk_delta_rule_fwd_model 1 (3 - 1) 2 1 1 (fun r => witQ (1 + r))
          (fun r => witK (1 + r)) (fun r => witV (1 + r)) (fun r => witBe (1 + r))
          (some (chunk_delta_rule_fwd_h 1 1 2 1 witK (fwd_prepare_w 1 1 2 witK witBe)
            (fwd_prepare_u 1 1 2 witK witV witBe) none (NTof 1 2))) true 1).o 0 0
        = (chunk_delta_rule_fwd_model 1 3 2 1 1 witQ witK witV witBe none true 1).o (1 + 0) 0
      ∧ chunk_delta_rule_fwd_h 1 (3 - 1) 2 1 (fun r => witK (1 + r))
          (fwd_prepare_w 1 (3 - 1) 2 (fun r => witK (1 + r)) (fun r => witBe (1 + r)))
          (fwd_prepare_u 1 (3 - 1) 2 (fun r => witK (1 + r)) (fun r => witV (1 + r))
            (fun r => witBe (1 + r)))
          (some (chunk_delta_rule_fwd_h 1 1 2 1 witK (fwd_prepare_w 1 1 2 witK witBe)
            (fwd_prepare_u 1 1 2 witK witV witBe) none (NTof 1 2)))
          (NTof (3 - 1) 2) 0 0
        = chunk_delta_rule_fwd_h 1 3 2 1 witK (fwd_prepare_w 1 3 2 witK witBe)
            (fwd_prepare_u 1 3 2 witK witV witBe) none (NTof 3 2) 0 0) :=
  ⟨by decide, by decide, by decide, by decide, by decide, by decide,
    claim_C2_state_chain 0 1 3 1 2 1 1 witQ witK witV witBe none 0 0 0 0
      (by decide) (by decide) (by decide) (by decide) (by decide) (by decide)⟩
